import Mathlib

/-!
Volume subsystem: local registry, local volume variants and driver adapter.

A shallow embedding of `volume/local`, `volume/bind`, `volume/tmpfs` and
`volume/drivers/adapter.go`.

* Go strings are modelled as `List Char` (`Str`).
* The operating system (file system calls) and the plugin proxy are external:
  they are oracles, passed as records of functions over an explicit state.
* `filepath.Clean`, `Join`, `Dir` and `Base` of the Go standard library follow
  their Unix sources; `Clean` is then shown equal to its description on path
  elements, which the proofs about paths use.
-/

namespace Docker

/-! ## Strings and `path/filepath` (Unix) -/

/-- Go `string`, as a list of characters. -/
abbrev Str := List Char

/-- Go `strings.HasPrefix(s, pre)`. -/
def HasPrefix : Str → Str → Bool
  | _, [] => true
  | [], _ :: _ => false
  | c :: s, d :: pre => c == d && HasPrefix s pre

/-- The path separator of `path/filepath` on Unix. -/
def Separator : Char := '/'

/-- Elements joined with the separator (`strings.Join(elems, "/")`). -/
def joinPath : List Str → Str
  | [] => []
  | [c] => c
  | c :: d :: cs => c ++ Separator :: joinPath (d :: cs)

/-- Whether the path starts with a separator. -/
def isRooted : Str → Bool
  | [] => false
  | c :: _ => c == Separator

/-- The inner loop of the `..` case of `filepath.Clean`, on the write index:
`for out.w > dotdot && !os.IsPathSeparator(out.index(out.w)) { out.w-- }`. -/
def backtrackLoop (out : List Char) (dotdot : Nat) : Nat → Nat
  | 0 => 0
  | w + 1 =>
    if dotdot < w + 1 ∧ out[w + 1]? ≠ some Separator then backtrackLoop out dotdot w
    else w + 1

/-- The main loop of `filepath.Clean`: `rest` is what is left to read
(`path[r:]`), `out` is what has been written (`out` up to `out.w`), `dotdot`
is the index where `..` must stop. Each turn reads at least one character, so
`fuel` as large as the length of `rest` is enough. -/
def cleanLoop (rooted : Bool) : Nat → List Char → List Char → Nat → List Char
  | 0, _, out, _ => out
  | _ + 1, [], out, _ => out
  | fuel + 1, c :: t, out, dotdot =>
    if c = Separator then
      -- empty path element
      cleanLoop rooted fuel t out dotdot
    else if c = '.' ∧ (t = [] ∨ t.head? = some Separator) then
      -- . element
      cleanLoop rooted fuel t out dotdot
    else if c = '.' ∧ t.head? = some '.' ∧ (t.tail = [] ∨ t.tail.head? = some Separator) then
      -- .. element: remove to last separator
      if dotdot < out.length then
        cleanLoop rooted fuel t.tail
          (out.take (backtrackLoop out dotdot (out.length - 1))) dotdot
      else if !rooted then
        cleanLoop rooted fuel t.tail
          ((if 0 < out.length then out ++ [Separator] else out) ++ ['.', '.'])
          ((if 0 < out.length then out ++ [Separator] else out) ++ ['.', '.']).length
      else cleanLoop rooted fuel t.tail out dotdot
    else
      -- real path element: add slash if needed, copy element
      cleanLoop rooted fuel ((c :: t).dropWhile (fun x => x != Separator))
        ((if (rooted && out.length != 1) || (!rooted && out.length != 0) then
            out ++ [Separator] else out) ++ (c :: t).takeWhile (fun x => x != Separator))
        dotdot

/-- Go `filepath.Clean` (Unix: no volume name). The buffer `lazybuf` is a
plain list of characters. -/
def Clean (path : Str) : Str :=
  if path = [] then ['.']
  else
    let out :=
      if isRooted path then cleanLoop true path.length path.tail [Separator] 1
      else cleanLoop false path.length path [] 0
    -- Turn empty string into "."
    if out.length = 0 then ['.'] else out

/-- Go `filepath.Join`: leading empty elements are skipped, the rest is
joined with the separator (`strings.Join`) and cleaned; the result is empty
when every element is. -/
def Join : List Str → Str
  | [] => []
  | e :: es => if e ≠ [] then Clean (joinPath (e :: es)) else Join es

/-- The part of a path up to and including its last separator
(`path[:i+1]` in `filepath.Dir`). -/
def dirPart : Str → Str
  | [] => []
  | c :: s =>
    if s.contains Separator then c :: dirPart s
    else if c = Separator then [c] else []

/-- Go `filepath.Dir` (Unix: no volume name). -/
def Dir (path : Str) : Str := Clean (dirPart path)

/-- A string without its trailing separators. -/
def stripTrailingSeparators (path : Str) : Str :=
  (path.reverse.dropWhile (fun c => c == Separator)).reverse

/-- Go `filepath.Base` (Unix): trailing separators are stripped, the last
element is taken; an empty path gives `.`, a path of separators only `/`. -/
def Base (path : Str) : Str :=
  if path = [] then ['.']
  else
    let last := ((stripTrailingSeparators path).reverse.takeWhile
      (fun c => c != Separator)).reverse
    if last = [] then [Separator] else last

/-! ## Errors, options maps and mount descriptions -/

/-- Errors of the operating system, by the classes the code tests for. -/
inductive OSError where
  | notExist
  | exist
  | permission
  | other (code : Nat)
  deriving DecidableEq, Repr

/-- Go `os.IsNotExist`. -/
def IsNotExist (e : OSError) : Bool := e = OSError.notExist

/-- Go `os.IsExist`. -/
def IsExist (e : OSError) : Bool := e = OSError.exist

/-- The errors the volume packages return. -/
inductive Error where
  /-- `ErrNotFound`: "volume not found". -/
  | ErrNotFound
  /-- `derr.ErrorCodeVolumeName.WithArgs(name, ...)`. -/
  | ErrorCodeVolumeName (name : Str)
  /-- "unknown volume type". -/
  | unknownVolumeType
  /-- "Unable to remove a directory of out the Docker root %s: %s". -/
  | outOfRoot (scope realPath : Str)
  /-- "volume already exists under %s". -/
  | alreadyExists (dir : Str)
  /-- An operating system error passed on unchanged. -/
  | os (e : OSError)
  /-- An error reported by the plugin proxy. -/
  | proxy (msg : Str)
  deriving DecidableEq, Repr

/-- Go `map[string]string`; `none` is the nil map. -/
abbrev Options := Option (List (Str × Str))

/-- The two-value index expression `v, ok := m[k]` (a nil map has no keys). -/
def Options.get? (m : Options) (k : Str) : Option Str :=
  match m with
  | none => none
  | some l => l.lookup k

/-- The index expression `m[k]`: the zero value when the key is absent. -/
def Options.index (m : Options) (k : Str) : Str := (m.get? k).getD []

/-- The assignment `m[k] = v` on a non-nil map: the value of an existing key
is replaced, a new key is added. -/
def mapSet : List (Str × Str) → Str → Str → List (Str × Str)
  | [], k, v => [(k, v)]
  | (a, b) :: l, k, v => if a = k then (a, v) :: l else (a, b) :: mapSet l k v

/-- Modelled from the spec: `volume.MountOpts`, declared in the package
`volume` outside these files, is the record
`{Source string; Device string; Data string; CoM bool}`. -/
structure MountOpts where
  Source : Str := []
  Device : Str := []
  Data : Str := []
  CoM : Bool := false
  deriving DecidableEq, Repr

/-! ## Volumes -/

/-- Go `bind.bindVolume` (the mutex is not modelled). -/
structure bindVolume where
  usedCount : Int := 0
  name : Str
  path : Str
  driverName : Str
  deriving DecidableEq, Repr

/-- Go `tmpfs.tmpfsVolume`. -/
structure tmpfsVolume where
  driverName : Str
  name : Str
  path : Str
  options : Options
  deriving DecidableEq, Repr

/-- Go `volumedrivers.volumeAdapter` (the proxy is external, see
`volumeDriverProxy`). -/
structure volumeAdapter where
  name : Str
  driverName : Str
  eMount : Str := []
  deriving DecidableEq, Repr

/-- The concrete types implementing the interface `local.Volume`
(`Init` and `RealPath`). -/
inductive LocalVolume where
  | bind (v : bindVolume)
  | tmpfs (v : tmpfsVolume)
  deriving DecidableEq, Repr

/-- The concrete types implementing the interface `volume.Volume`. -/
inductive Volume where
  | localVol (v : LocalVolume)
  | adapter (a : volumeAdapter)
  deriving DecidableEq, Repr

/-- `Name()` of the local volumes. -/
def LocalVolume.Name : LocalVolume → Str
  | .bind v => v.name
  | .tmpfs v => v.name

/-- `DriverName()` of the local volumes. -/
def LocalVolume.DriverName : LocalVolume → Str
  | .bind v => v.driverName
  | .tmpfs v => v.driverName

/-- `Path()` of the local volumes. -/
def LocalVolume.Path : LocalVolume → Str
  | .bind v => v.path
  | .tmpfs v => v.path

/-- `VolumeDataPathName`. -/
def VolumeDataPathName : Str := "_data".toList

/-- `dataPath` of `bind` and of `tmpfs`. -/
def dataPath (volumeName rootPath : Str) : Str :=
  Join [rootPath, volumeName, VolumeDataPathName]

/-- `defaultMode` of `tmpfs`. -/
def defaultMode : Str := "755".toList

/-- `defaultSize` of `tmpfs`. -/
def defaultSize : Str := "65536k".toList

/-- The type `volumeFactory`. A factory may write to the options map it is
given, so it returns the map as it leaves it; `none` is a run-time panic. -/
abbrev volumeFactory := Str → Str → Str → Options → Option (LocalVolume × Options)

/-- `bind.newBindVolume`. -/
def newBindVolume : volumeFactory := fun name rootPath driverName options =>
  some (.bind { driverName := driverName, name := name, path := dataPath name rootPath },
    options)

/-- The option key `"mode"`. -/
def modeKey : Str := "mode".toList

/-- The option key `"size"`. -/
def sizeKey : Str := "size".toList

/-- The option key `"CoM"`. -/
def comKey : Str := "CoM".toList

/-- `tmpfs.newTmpfsVolume`: writing a default into a nil map panics. -/
def newTmpfsVolume : volumeFactory := fun name rootPath driverName options =>
  match options with
  | none => none
  | some m =>
    let m1 := if (m.lookup modeKey).isNone then mapSet m modeKey defaultMode else m
    let m2 := if (m1.lookup sizeKey).isNone then mapSet m1 sizeKey defaultMode else m1
    some (.tmpfs { driverName := driverName, name := name, path := dataPath name rootPath,
                   options := some m2 }, some m2)

/-- `bindVolume.Options`. -/
def bindVolume.Options (v : bindVolume) : Except Error MountOpts :=
  .ok { Source := v.path, Device := "bind".toList }

/-- `tmpfsVolume.Options`: `fmt.Sprintf("mode=%s,size=%s", ...)`. -/
def tmpfsVolume.Options (v : tmpfsVolume) : Except Error MountOpts :=
  let data := "mode=".toList ++ v.options.index modeKey ++ ",size=".toList ++
    v.options.index sizeKey
  let com := (v.options.get? comKey).isSome
  .ok { Source := "tmpfs".toList, Device := "tmpfs".toList, Data := data, CoM := com }

/-- `Options()` of the local volumes. -/
def LocalVolume.Options : LocalVolume → Except Error MountOpts
  | .bind v => v.Options
  | .tmpfs v => v.Options

/-! ## The operating system and the registry -/

/-- The file system calls the packages make, as an oracle over a file system
state `FS`, together with the package variable `volumeNameRegex`
(`utils.RestrictedNamePattern`, defined outside these files and taken as a
parameter). -/
structure Env (FS : Type) where
  /-- `idtools.MkdirAllAs(path, mode, uid, gid)`. -/
  MkdirAllAs : FS → Str → Nat → Int → Int → FS × Option OSError
  /-- `ioutil.ReadDir(path)`: the names of the entries. -/
  ReadDir : FS → Str → Except OSError (List Str)
  /-- `filepath.EvalSymlinks(path)`. -/
  EvalSymlinks : FS → Str → Except OSError Str
  /-- `os.RemoveAll(path)`. -/
  RemoveAll : FS → Str → FS × Option OSError
  /-- `volumeNameRegex.MatchString(name)`. -/
  volumeNameRegex : Str → Bool

/-- The calls a registry operation makes, in order. -/
inductive Call where
  | factory (name rootPath driverName : Str) (options : Options)
  | Init (path : Str) (rootUID rootGID : Int)
  | MkdirAllAs (path : Str) (mode : Nat) (uid gid : Int)
  | ReadDir (path : Str)
  | EvalSymlinks (path : Str)
  | RemoveAll (path : Str)
  deriving DecidableEq, Repr

/-- Go `local.Root` (the mutex is not modelled: calls are sequential). -/
structure Root where
  name : Str
  scope : Str
  path : Str
  volumes : Str → Option LocalVolume
  rootUID : Int
  rootGID : Int
  factory : volumeFactory

/-- How a call ends: with a value, with an error, or in a run-time panic. -/
inductive Outcome (α : Type) where
  | ok (v : α)
  | error (e : Error)
  | panic
  deriving DecidableEq, Repr

/-- The result of a registry operation: its outcome, the registry and the
file system after it, and the calls it made. -/
structure Step (FS : Type) (α : Type) where
  out : Outcome α
  root : Root
  fs : FS
  calls : List Call

/-- `Init` of `bindVolume` and of `tmpfsVolume` (the same code). -/
def LocalVolume.Init {FS : Type} (env : Env FS) (fs : FS) (v : LocalVolume)
    (rootUID rootGID : Int) : FS × Option Error :=
  match env.MkdirAllAs fs v.Path 0o755 rootUID rootGID with
  | (fs1, some err) =>
    if IsExist err then (fs1, some (Error.alreadyExists (Dir v.Path)))
    else (fs1, some (Error.os err))
  | (fs1, none) => (fs1, none)

/-- `RealPath` of `bindVolume` and of `tmpfsVolume` (the same code). -/
def LocalVolume.RealPath {FS : Type} (env : Env FS) (fs : FS) (v : LocalVolume) :
    Except Error Str :=
  match env.EvalSymlinks fs v.Path with
  | .error err => if !IsNotExist err then .error (Error.os err) else .ok (Dir v.Path)
  | .ok realPath => .ok realPath

/-- `oldVfsDir`. -/
def oldVfsDir : Str := Join ["vfs".toList, "dir".toList]

/-- `Root.scopedPath` of `local_unix.go`. -/
def Root.scopedPath (r : Root) (realPath : Str) : Bool :=
  if HasPrefix realPath r.path && realPath != r.path then true
  else
    let rootBase := Dir r.path
    if HasPrefix realPath (Join [rootBase, oldVfsDir]) then true
    else false

/-- `Root.scopedPath` of `local_windows.go`. -/
def Root.scopedPathWindows (r : Root) (realPath : Str) : Bool :=
  HasPrefix realPath r.path && realPath != r.path

/-- `Root.Name`. -/
def Root.Name (r : Root) : Str := r.name

/-- `Root.validateName`. -/
def Root.validateName {FS : Type} (env : Env FS) (_r : Root) (name : Str) : Option Error :=
  if !env.volumeNameRegex name then some (Error.ErrorCodeVolumeName name) else none

/-- `validVolume`: the assertion `v.(volume.Volume)` holds for both concrete
types of `LocalVolume`, which have all the methods of `volume.Volume`. -/
def validVolume (v : LocalVolume) : Outcome Volume := .ok (Volume.localVol v)

/-- The assignment `r.volumes[name] = v`. -/
def mapInsert (m : Str → Option LocalVolume) (name : Str) (v : LocalVolume) :
    Str → Option LocalVolume :=
  fun k => if k = name then some v else m k

/-- The statement `delete(r.volumes, name)`. -/
def mapDelete (m : Str → Option LocalVolume) (name : Str) : Str → Option LocalVolume :=
  fun k => if k = name then none else m k

/-- `Root.Create`. -/
def Root.Create {FS : Type} (env : Env FS) (r : Root) (fs : FS) (name : Str)
    (options : Options) : Step FS Volume :=
  match r.validateName env name with
  | some err => ⟨.error err, r, fs, []⟩
  | none =>
    match r.volumes name with
    | some v => ⟨validVolume v, r, fs, []⟩
    | none =>
      match r.factory name r.path r.Name options with
      | none => ⟨.panic, r, fs, [.factory name r.path r.Name options]⟩
      | some (v, _) =>
        let calls := [Call.factory name r.path r.Name options,
          Call.Init v.Path r.rootUID r.rootGID, Call.MkdirAllAs v.Path 0o755 r.rootUID r.rootGID]
        match v.Init env fs r.rootUID r.rootGID with
        | (fs1, some err) => ⟨.error err, r, fs1, calls⟩
        | (fs1, none) =>
          ⟨validVolume v, { r with volumes := mapInsert r.volumes name v }, fs1, calls⟩

/-- `removePath`. -/
def removePath {FS : Type} (env : Env FS) (fs : FS) (path : Str) : FS × Option Error :=
  match env.RemoveAll fs path with
  | (fs1, some err) => if IsNotExist err then (fs1, none) else (fs1, some (Error.os err))
  | (fs1, none) => (fs1, none)

/-- `Name()` of a `volume.Volume`. -/
def Volume.Name : Volume → Str
  | .localVol v => v.Name
  | .adapter a => a.name

/-- `DriverName()` of a `volume.Volume`. -/
def Volume.DriverName : Volume → Str
  | .localVol v => v.DriverName
  | .adapter a => a.driverName

/-- `Root.Remove`. The assertion `v.(Volume)` fails for an adapter volume,
which has neither `Init` nor `RealPath`. -/
def Root.Remove {FS : Type} (env : Env FS) (r : Root) (fs : FS) (v : Volume) :
    Step FS Unit :=
  match v with
  | .adapter _ => ⟨.error Error.unknownVolumeType, r, fs, []⟩
  | .localVol lv =>
    match lv.RealPath env fs with
    | .error err => ⟨.error err, r, fs, [.EvalSymlinks lv.Path]⟩
    | .ok realPath =>
      if !r.scopedPath realPath then
        ⟨.error (Error.outOfRoot r.scope realPath), r, fs, [.EvalSymlinks lv.Path]⟩
      else
        match removePath env fs realPath with
        | (fs1, some err) =>
          ⟨.error err, r, fs1, [.EvalSymlinks lv.Path, .RemoveAll realPath]⟩
        | (fs1, none) =>
          let r1 := { r with volumes := mapDelete r.volumes lv.Name }
          let calls := [Call.EvalSymlinks lv.Path, Call.RemoveAll realPath,
            Call.RemoveAll (Dir lv.Path)]
          match removePath env fs1 (Dir lv.Path) with
          | (fs2, some err) => ⟨.error err, r1, fs2, calls⟩
          | (fs2, none) => ⟨.ok (), r1, fs2, calls⟩

/-- `Root.Get`. -/
def Root.Get (r : Root) (name : Str) : Outcome Volume :=
  match r.volumes name with
  | none => .error Error.ErrNotFound
  | some v => validVolume v

/-- The loop of `NewVolumeRoot` over the directory entries: each call of the
factory gets the options map as the calls before it left it. -/
def scanVolumes (factory : volumeFactory) (rootPath rname : Str) :
    List Str → Options → (Str → Option LocalVolume) → Option (Str → Option LocalVolume)
  | [], _, vols => some vols
  | d :: dirs, opts, vols =>
    match factory (Base d) rootPath rname opts with
    | none => none
    | some (v, opts1) => scanVolumes factory rootPath rname dirs opts1 (mapInsert vols (Base d) v)

/-- `NewVolumeRoot`. -/
def NewVolumeRoot {FS : Type} (env : Env FS) (fs : FS) (scope name base : Str)
    (rootUID rootGID : Int) (factory : volumeFactory) : Outcome Root × FS :=
  let rootDirectory := Join [scope, base]
  match env.MkdirAllAs fs rootDirectory 0o700 rootUID rootGID with
  | (fs1, some err) => (.error (Error.os err), fs1)
  | (fs1, none) =>
    match env.ReadDir fs1 rootDirectory with
    | .error err => (.error (Error.os err), fs1)
    | .ok dirs =>
      match scanVolumes factory rootDirectory name dirs (some []) (fun _ => none) with
      | none => (.panic, fs1)
      | some vols =>
        (.ok { scope := scope, name := name, path := rootDirectory, volumes := vols,
               rootUID := rootUID, rootGID := rootGID, factory := factory }, fs1)

/-! ## The driver adapter -/

/-- Modelled from the spec: `volumeDriverProxy`, defined outside these
files, is an opaque object with the operations `Create`, `Remove`, `Path`,
`Mount` and `Unmount`. It is an oracle over a state `σ`; a call returns its
results as Go does, a string and an error side by side. -/
structure volumeDriverProxy (σ : Type) where
  Create : σ → Str → Options → σ × Option Error
  Remove : σ → Str → σ × Option Error
  Path : σ → Str → σ × Str × Option Error
  Mount : σ → Str → σ × Str × Option Error
  Unmount : σ → Str → σ × Option Error

/-- The calls an adapter operation makes to the proxy. -/
inductive ProxyCall where
  | Create (name : Str)
  | Remove (name : Str)
  | Path (name : Str)
  | Mount (name : Str)
  | Unmount (name : Str)
  deriving DecidableEq, Repr

/-- The result of an operation of an adapter volume: the value returned, the
volume and the proxy after it, and the proxy calls it made. -/
structure AdapterStep (σ : Type) (α : Type) where
  value : α
  vol : volumeAdapter
  proxy : σ
  calls : List ProxyCall

/-- `volumeDriverAdapter.Create`. -/
def volumeDriverAdapterCreate {σ : Type} (proxy : volumeDriverProxy σ) (driver : Str)
    (s : σ) (name : Str) (opts : Options) : σ × Except Error volumeAdapter :=
  match proxy.Create s name opts with
  | (s1, some err) => (s1, .error err)
  | (s1, none) => (s1, .ok { name := name, driverName := driver })

/-- `volumeAdapter.Path`. -/
def volumeAdapter.Path {σ : Type} (proxy : volumeDriverProxy σ) (s : σ) (a : volumeAdapter) :
    AdapterStep σ Str :=
  if a.eMount.length > 0 then ⟨a.eMount, a, s, []⟩
  else
    match proxy.Path s a.name with
    | (s1, m, _) => ⟨m, a, s1, [.Path a.name]⟩

/-- `volumeAdapter.Options`. -/
def volumeAdapter.Options {σ : Type} (proxy : volumeDriverProxy σ) (s : σ) (a : volumeAdapter) :
    AdapterStep σ (Except Error MountOpts) :=
  match proxy.Mount s a.name with
  | (s1, m, some err) => ⟨.error err, { a with eMount := m }, s1, [.Mount a.name]⟩
  | (s1, m, none) =>
    ⟨.ok { Source := m, Device := "bind".toList }, { a with eMount := m }, s1, [.Mount a.name]⟩

/-- `volumeAdapter.Unmount`. -/
def volumeAdapter.Unmount {σ : Type} (proxy : volumeDriverProxy σ) (s : σ) (a : volumeAdapter) :
    AdapterStep σ (Option Error) :=
  match proxy.Unmount s a.name with
  | (s1, err) => ⟨err, a, s1, [.Unmount a.name]⟩

/-! ## Cleaning described on path elements

`filepath.Clean` is shown below (`Clean_eq_renderPath`) to do what its
documentation says: multiple separators become one, each `.` element is
dropped, each inner `..` element is dropped together with the element before
it, `..` elements that begin a rooted path are dropped, and the empty result
is `.`. -/

/-- Path elements of a string: the pieces between separators
(`"/a//b"` gives `["", "a", "", "b"]`, the empty string gives `[""]`). -/
def splitPath : Str → List Str
  | [] => [[]]
  | c :: s =>
    if c = Separator then [] :: splitPath s
    else
      match splitPath s with
      | [] => [[c]]
      | h :: t => (c :: h) :: t

/-- One step of cleaning on the stack of elements kept so far
(top of the stack first): empty and `.` elements are dropped, `..` removes
the element before it when there is one that is not `..`, is dropped at the
root of a rooted path, and is kept otherwise; other elements are pushed. -/
def cleanStep (rooted : Bool) (stack : List Str) (c : Str) : List Str :=
  if c = [] ∨ c = ['.'] then stack
  else if c = ['.', '.'] then
    match stack with
    | [] => if rooted then [] else [c]
    | top :: rest => if top = ['.', '.'] then c :: stack else rest
  else c :: stack

/-- The elements that cleaning keeps, in order. -/
def cleanElems (rooted : Bool) (elems : List Str) : List Str :=
  (elems.foldl (cleanStep rooted) []).reverse

/-- A cleaned path written out: a rooted path starts with the separator, an
empty relative path is `.`. -/
def renderPath (rooted : Bool) (elems : List Str) : Str :=
  if rooted then Separator :: joinPath elems
  else if elems = [] then ['.'] else joinPath elems

/-- The buffer of `Clean` that holds a stack of elements (top first). -/
def bufOf (rooted : Bool) (st : List Str) : List Char :=
  if rooted then Separator :: joinPath st.reverse else joinPath st.reverse

/-- The index `dotdot` of `Clean` for a stack of elements (top first). -/
def dotdotOf (rooted : Bool) : List Str → Nat
  | [] => if rooted then 1 else 0
  | c :: st => if c = ['.', '.'] then (bufOf rooted (c :: st)).length else dotdotOf rooted st

/-! ## Predicates used in the statements -/

/-- A stack of path elements (top first) as `filepath.Clean` builds it: no
empty and no `.` element, and a `..` element only in a relative path, on top
of `..` elements only. -/
def IsCleanStack (rooted : Bool) : List Str → Prop
  | [] => True
  | c :: st =>
    c ≠ [] ∧ c ≠ ['.'] ∧ (c = ['.', '.'] → rooted = false ∧ ∀ d ∈ st, d = ['.', '.']) ∧
      IsCleanStack rooted st

/-- Path elements in cleaned form: a clean stack when read backwards, and no
element contains a separator. -/
def IsCleanElems (rooted : Bool) (cs : List Str) : Prop :=
  IsCleanStack rooted cs.reverse ∧ ∀ c ∈ cs, Separator ∉ c

/-- A name that is one directory entry: not empty, without a separator, and
neither `.` nor `..`. -/
def isLeafName (n : Str) : Bool :=
  n != [] && !n.contains Separator && n != ['.'] && n != ['.', '.']

/-- A name that leads downwards from the directory it is joined to: none of
its elements is `..`, and one of them at least is neither empty nor `.`
(`db`, `/ab` and `a/b` are such names). -/
def isDownName (n : Str) : Bool :=
  (splitPath n).all (fun c => c != ['.', '.']) &&
    (splitPath n).any (fun c => c != [] && c != ['.'])

/-- The path `p` is a strict descendant of `root` in the directory tree:
`root`, a separator, and at least one more character. -/
def strictlyUnder (root p : Str) : Bool :=
  HasPrefix p (root ++ [Separator]) && decide (root.length + 1 < p.length)

/-- The legacy location `<dirname(r.path)>/vfs/dir`. -/
def Root.legacyDir (r : Root) : Str := Join [Dir r.path, oldVfsDir]

/-- The path `p` lies under the legacy location: it is that directory or a
strict descendant of it. -/
def Root.underLegacy (r : Root) (p : Str) : Bool :=
  p == r.legacyDir || strictlyUnder r.legacyDir p

/-- What the factories of the repository do: the volume gets the name and
the driver name it was asked for, and the data path under the root path. -/
def FactoryOK (f : volumeFactory) : Prop :=
  ∀ n p d o v o1, f n p d o = some (v, o1) →
    v.Name = n ∧ v.Path = dataPath n p ∧ v.DriverName = d

/-- The entries of the `volumes` mapping are as `NewVolumeRoot` and `Create`
put them there: under its key, a volume of that name, of this driver, with
its data path under the managed root. -/
def Root.WellFormed (r : Root) : Prop :=
  ∀ k v, r.volumes k = some v → v.Name = k ∧ v.Path = dataPath k r.path ∧ v.DriverName = r.name

/-! ## A small concrete file system, for the examples -/

/-- A file system: the directories that exist, the symbolic links with the
path each resolves to, and the paths that cannot be removed. -/
structure ToyFS where
  dirs : List Str
  links : List (Str × Str) := []
  locked : List Str := []
  deriving DecidableEq, Repr

/-- The path, its parent, the parent of that, and so on (`k` steps up). -/
def ancestors : Nat → Str → List Str
  | 0, q => [q]
  | k + 1, q => q :: ancestors k (Dir q)

/-- Whether `q` is `p` or lies below it. -/
def inTree (p q : Str) : Bool := (ancestors (q.length + 1) q).contains p

/-- Whether a character is a letter or a digit. -/
def isAlnum (c : Char) : Bool := c.isAlphanum

/-- The pattern `^/?[a-zA-Z0-9][a-zA-Z0-9_.-]+$`. -/
def toyNamePattern (n : Str) : Bool :=
  let m := match n with
    | '/' :: t => t
    | _ => n
  match m with
  | c :: d :: t =>
    isAlnum c && (d :: t).all (fun x => isAlnum x || x == '_' || x == '.' || x == '-')
  | _ => false

/-- The file system calls on `ToyFS`. -/
def toyEnv : Env ToyFS where
  MkdirAllAs := fun fs p _ _ _ =>
    ({ fs with dirs := ancestors (p.length + 1) p ++ fs.dirs }, none)
  ReadDir := fun fs p =>
    if fs.dirs.contains p then .ok ((fs.dirs.filter (fun q => Dir q == p && q != p)).map Base)
    else .error OSError.notExist
  EvalSymlinks := fun fs p =>
    match fs.links.lookup p with
    | some t => .ok t
    | none => if fs.dirs.contains p then .ok p else .error OSError.notExist
  RemoveAll := fun fs p =>
    if fs.locked.any (inTree p) then (fs, some OSError.permission)
    else ({ fs with dirs := fs.dirs.filter (fun q => !inTree p q),
                    links := fs.links.filter (fun l => !inTree p l.1) }, none)
  volumeNameRegex := toyNamePattern

/-- Whether a directory exists in a `ToyFS`. -/
def toyExists (fs : ToyFS) (p : Str) : Bool := fs.dirs.contains p

/-- A registry of bind volumes on `/var/lib/docker/volumes` with one volume. -/
def dockerRoot : Root where
  name := "local".toList
  scope := "/var/lib/docker".toList
  path := "/var/lib/docker/volumes".toList
  volumes := fun k =>
    if k = "db".toList then
      some (.bind { name := "db".toList, path := "/var/lib/docker/volumes/db/_data".toList,
                    driverName := "local".toList })
    else none
  rootUID := 0
  rootGID := 0
  factory := newBindVolume

/-- The volume `db` of `dockerRoot`. -/
def dbVolume : LocalVolume :=
  .bind { name := "db".toList, path := "/var/lib/docker/volumes/db/_data".toList,
          driverName := "local".toList }

/-- A file system in which the data directory of `db` is a symbolic link to
a directory beside the managed root. -/
def siblingFS : ToyFS where
  dirs := ["/var/lib/docker".toList, "/var/lib/docker/volumes".toList,
    "/var/lib/docker/volumes/db".toList, "/var/lib/docker/volumes-old".toList,
    "/var/lib/docker/volumes-old/data".toList]
  links := [("/var/lib/docker/volumes/db/_data".toList, "/var/lib/docker/volumes-old/data".toList)]

/-- A file system in which the data directory of `db` is a symbolic link to
`/etc`. -/
def escapeFS : ToyFS where
  dirs := ["/etc".toList, "/var/lib/docker".toList, "/var/lib/docker/volumes".toList,
    "/var/lib/docker/volumes/db".toList]
  links := [("/var/lib/docker/volumes/db/_data".toList, "/etc".toList)]

/-- A file system in which the directory of `db` holds, beside `_data`, an
entry that cannot be removed. -/
def lockedFS : ToyFS where
  dirs := ["/var/lib/docker".toList, "/var/lib/docker/volumes".toList,
    "/var/lib/docker/volumes/db".toList, "/var/lib/docker/volumes/db/_data".toList,
    "/var/lib/docker/volumes/db/keep".toList]
  locked := ["/var/lib/docker/volumes/db/keep".toList]

/-- A file system with the volume `db` in place and nothing else. -/
def plainFS : ToyFS where
  dirs := ["/var/lib/docker".toList, "/var/lib/docker/volumes".toList,
    "/var/lib/docker/volumes/db".toList, "/var/lib/docker/volumes/db/_data".toList]

/-- A registry of bind volumes on `/var/lib/engine/volumes`, empty. -/
def engineRoot : Root where
  name := "local".toList
  scope := "/var/lib/engine".toList
  path := "/var/lib/engine/volumes".toList
  volumes := fun _ => none
  rootUID := 0
  rootGID := 0
  factory := newBindVolume

/-- A file system with the managed root of `engineRoot` and nothing in it. -/
def engineFS : ToyFS where
  dirs := ["/var/lib/engine".toList, "/var/lib/engine/volumes".toList]

/-- The bind volume `cache` of `engineRoot`. -/
def cacheVolume : LocalVolume :=
  .bind { name := "cache".toList, path := "/var/lib/engine/volumes/cache/_data".toList,
          driverName := "local".toList }

/-! ## Sequences of calls on an adapter volume -/

/-- The calls on an adapter volume that touch its mount path. -/
inductive AdapterOp where
  | Path
  | Options
  | Unmount
  deriving DecidableEq, Repr

/-- An adapter volume in use: the proxy state, the volume, and the strings
the proxy has returned from `Mount` so far (latest last). -/
structure AdapterRun (σ : Type) where
  proxy : σ
  vol : volumeAdapter
  mounts : List Str

/-- One call on an adapter volume. -/
def stepAdapter {σ : Type} (proxy : volumeDriverProxy σ) (st : AdapterRun σ) :
    AdapterOp → AdapterRun σ
  | .Path => { st with proxy := (st.vol.Path proxy st.proxy).proxy,
                       vol := (st.vol.Path proxy st.proxy).vol }
  | .Options => { proxy := (st.vol.Options proxy st.proxy).proxy,
                  vol := (st.vol.Options proxy st.proxy).vol,
                  mounts := st.mounts ++ [(proxy.Mount st.proxy st.vol.name).2.1] }
  | .Unmount => { st with proxy := (st.vol.Unmount proxy st.proxy).proxy,
                          vol := (st.vol.Unmount proxy st.proxy).vol }

/-- A sequence of calls on an adapter volume as `volumeDriverAdapter.Create`
returns it. -/
def runAdapter {σ : Type} (proxy : volumeDriverProxy σ) (s : σ) (name driverName : Str)
    (ops : List AdapterOp) : AdapterRun σ :=
  ops.foldl (stepAdapter proxy) { proxy := s, vol := { name := name, driverName := driverName },
                                  mounts := [] }

/-- A proxy without state whose `Mount` and `Path` return the given strings
and that never fails. -/
def constProxy (mountPoint pathResult : Str) : volumeDriverProxy Unit where
  Create := fun s _ _ => (s, none)
  Remove := fun s _ => (s, none)
  Path := fun s _ => (s, pathResult, none)
  Mount := fun s _ => (s, mountPoint, none)
  Unmount := fun s _ => (s, none)

/-- A plugin volume, not mounted. -/
def pluginVolume : volumeAdapter := { name := "data".toList, driverName := "plugin".toList }

/-! ## Further examples -/

/-- The file system calls on `ToyFS` when no directory can be created. -/
def readOnlyEnv : Env ToyFS :=
  { toyEnv with MkdirAllAs := fun fs _ _ _ _ => (fs, some OSError.permission) }

/-- A registry of tmpfs volumes on `/var/lib/engine/tmpfs`, empty. -/
def tmpfsRoot : Root where
  name := "tmpfs".toList
  scope := "/var/lib/engine".toList
  path := "/var/lib/engine/tmpfs".toList
  volumes := fun _ => none
  rootUID := 0
  rootGID := 0
  factory := newTmpfsVolume

/-- A tmpfs volume named `db`, made by a driver `tmpfs` on the scope of
`dockerRoot`. -/
def tmpfsDbVolume : LocalVolume :=
  .tmpfs { driverName := "tmpfs".toList, name := "db".toList,
           path := "/var/lib/docker/tmpfs/db/_data".toList,
           options := some [(modeKey, "755".toList), (sizeKey, "755".toList)] }

/-- A file system in which the data directory of the tmpfs volume `db` is a
symbolic link to the data directory of the bind volume `db`. -/
def crossFS : ToyFS where
  dirs := ["/var/lib/docker".toList, "/var/lib/docker/volumes".toList,
    "/var/lib/docker/volumes/db".toList, "/var/lib/docker/volumes/db/_data".toList,
    "/var/lib/docker/tmpfs".toList, "/var/lib/docker/tmpfs/db".toList]
  links := [("/var/lib/docker/tmpfs/db/_data".toList, "/var/lib/docker/volumes/db/_data".toList)]

/-- Whether a `ToyFS` records the path or anything below it. -/
def toyPresent (fs : ToyFS) (p : Str) : Bool :=
  fs.dirs.any (inTree p) || fs.links.any (fun l => inTree p l.1) || fs.locked.any (inTree p)

/-! ## Sequences of calls on a registry and restart -/

/-- A call on a registry. -/
inductive RootOp where
  | Create (name : Str) (options : Options)
  | Remove (v : Volume)
  deriving DecidableEq, Repr

/-- The registry and the file system after one call. -/
def stepRoot {FS : Type} (env : Env FS) (st : Root × FS) : RootOp → Root × FS
  | .Create n o => ((st.1.Create env st.2 n o).root, (st.1.Create env st.2 n o).fs)
  | .Remove v => ((st.1.Remove env st.2 v).root, (st.1.Remove env st.2 v).fs)

/-- The registry and the file system after a sequence of calls. -/
def runRoot {FS : Type} (env : Env FS) (st : Root × FS) (ops : List RootOp) : Root × FS :=
  ops.foldl (stepRoot env) st

/-- The bind volume of a name, as `newBindVolume` makes it for a registry
with the given root path and driver name. -/
def bindVolumeOf (name rootPath driverName : Str) : LocalVolume :=
  .bind { name := name, path := dataPath name rootPath, driverName := driverName }

/-- Whether a call is a `Create` with a plain name, or the `Remove` of a bind
volume of the registry with a plain name (the volumes the registry hands out
for such names). -/
def RootOp.ofRegistry (rootPath driverName : Str) : RootOp → Bool
  | .Create n _ => isLeafName n
  | .Remove (.localVol lv) =>
    isLeafName lv.Name && lv == bindVolumeOf lv.Name rootPath driverName
  | .Remove (.adapter _) => false

/-- The file system calls on `ToyFS` with a given name pattern: the model of
the operating system used for restart. `MkdirAllAs` makes the directory and
its ancestors, `RemoveAll` removes the path and what is below it, `ReadDir`
lists the entries directly in a directory, `EvalSymlinks` follows the links
recorded, and no call fails unless an entry is marked as not removable. -/
def modelEnv (pat : Str → Bool) : Env ToyFS := { toyEnv with volumeNameRegex := pat }

/-- The elements of a path after cleaning. -/
def elemsOf (p : Str) : List Str := cleanElems (isRooted p) (splitPath p)

/-- A cleaned path other than `/` and `.`. -/
def GoodRoot (p : Str) : Prop := Clean p = p ∧ p ≠ [Separator] ∧ p ≠ ['.']

/-- A registry of bind volumes and a `ToyFS` that agree: the file system has
no symbolic link and no entry that cannot be removed, the managed root
exists, every entry of the mapping is the bind volume of its key, a plain
name whose directory exists, and every directory directly under the managed
root is the directory of a registered name. -/
def Agree (rootPath driverName : Str) (r : Root) (fs : ToyFS) : Prop :=
  r.path = rootPath ∧ r.name = driverName ∧ r.factory = newBindVolume ∧
  fs.links = [] ∧ fs.locked = [] ∧ rootPath ∈ fs.dirs ∧
  (∀ k v, r.volumes k = some v →
    isLeafName k = true ∧ v = bindVolumeOf k rootPath driverName ∧
      rootPath ++ Separator :: k ∈ fs.dirs) ∧
  (∀ q ∈ fs.dirs, Dir q = rootPath → q ≠ rootPath →
    ∃ k, (r.volumes k).isSome = true ∧ q = rootPath ++ Separator :: k)

/-- The file system after `toyEnv` has made a directory and its ancestors. -/
def ToyFS.withDirs (fs : ToyFS) (p : Str) : ToyFS :=
  { fs with dirs := ancestors (p.length + 1) p ++ fs.dirs }

/-- The file system after `toyEnv` has removed a path and what is below it. -/
def ToyFS.without (fs : ToyFS) (p : Str) : ToyFS :=
  { fs with dirs := fs.dirs.filter (fun q => !inTree p q),
            links := fs.links.filter (fun l => !inTree p l.1) }

/-- The data string of the mount description of a local volume. -/
def mountData (v : LocalVolume) : Str :=
  match v.Options with
  | .ok m => m.Data
  | .error _ => []

/-- A file system on which the directory of `db` cannot be removed. -/
def busyFS : ToyFS where
  dirs := ["/var/lib/docker".toList]
  locked := ["/var/lib/docker/volumes/db".toList]

/-- A file system with the scope directory only. -/
def scopeFS : ToyFS where
  dirs := ["/var/lib/docker".toList]

/-! ## The path functions on the cases of the Go test tables -/

theorem Clean_examples :
    Clean "abc//def//ghi".toList = "abc/def/ghi".toList ∧
    Clean "".toList = ".".toList ∧
    Clean "/".toList = "/".toList ∧
    Clean "abc/def/".toList = "abc/def".toList ∧
    Clean "/./abc/def".toList = "/abc/def".toList ∧
    Clean "abc/def/../ghi/../jkl".toList = "abc/jkl".toList ∧
    Clean "abc/def/../..".toList = ".".toList ∧
    Clean "/abc/def/../../..".toList = "/".toList ∧
    Clean "abc/def/../../../ghi/jkl/../../../mno".toList = "../../mno".toList ∧
    Clean "/../abc".toList = "/abc".toList ∧
    Clean "abc/../../././../def".toList = "../../def".toList := by
  decide

theorem Join_examples :
    Join ["a".toList, "b".toList] = "a/b".toList ∧
    Join ["a".toList, "".toList] = "a".toList ∧
    Join ["".toList, "b".toList] = "b".toList ∧
    Join ["/".toList, "a".toList] = "/a".toList ∧
    Join ["a/".toList, "b".toList] = "a/b".toList ∧
    Join ["".toList, "".toList] = "".toList ∧
    Join ["/var/lib/docker".toList, "volumes".toList] = "/var/lib/docker/volumes".toList ∧
    oldVfsDir = "vfs/dir".toList := by
  decide

theorem Dir_Base_examples :
    Dir "".toList = ".".toList ∧
    Dir "/.".toList = "/".toList ∧
    Dir "////".toList = "/".toList ∧
    Dir "/foo".toList = "/".toList ∧
    Dir "x/".toList = "x".toList ∧
    Dir "abc".toList = ".".toList ∧
    Dir "a/b/c.x".toList = "a/b".toList ∧
    Base "".toList = ".".toList ∧
    Base "////".toList = "/".toList ∧
    Base "x/".toList = "x".toList ∧
    Base "a/b/.x".toList = ".x".toList := by
  decide

/-! ## Path lemmas -/

theorem HasPrefix_iff (s pre : Str) : HasPrefix s pre = true ↔ pre <+: s := by
  induction pre generalizing s with
  | nil => simp [HasPrefix]
  | cons d pre ih =>
    cases s with
    | nil => simp [HasPrefix]
    | cons c s =>
      simp only [HasPrefix, Bool.and_eq_true, beq_iff_eq, ih, List.cons_prefix_cons]
      constructor
      · rintro ⟨h1, h2⟩; exact ⟨h1.symm, h2⟩
      · rintro ⟨h1, h2⟩; exact ⟨h1.symm, h2⟩

theorem HasPrefix_self (s : Str) : HasPrefix s s = true :=
  (HasPrefix_iff s s).2 (List.prefix_refl s)

theorem HasPrefix_append (s t : Str) : HasPrefix (s ++ t) s = true :=
  (HasPrefix_iff _ _).2 (List.prefix_append s t)

theorem splitPath_ne_nil (s : Str) : splitPath s ≠ [] := by
  cases s with
  | nil => simp [splitPath]
  | cons c s =>
    unfold splitPath
    split
    · simp
    · split <;> simp

theorem splitPath_of_not_mem (s : Str) (h : Separator ∉ s) : splitPath s = [s] := by
  induction s with
  | nil => rfl
  | cons c s ih =>
    have hc : c ≠ Separator := fun e => h (by simp [e])
    have hs : Separator ∉ s := fun e => h (List.mem_cons_of_mem _ e)
    simp [splitPath, hc, ih hs]

theorem splitPath_cons_sep (s : Str) : splitPath (Separator :: s) = [] :: splitPath s := by
  simp [splitPath]

theorem splitPath_cons_ne (c : Char) (s : Str) (hc : c ≠ Separator) :
    splitPath (c :: s) = (c :: ((splitPath s).head?).getD []) :: (splitPath s).tail := by
  cases h : splitPath s with
  | nil => exact absurd h (splitPath_ne_nil s)
  | cons x xs => simp [splitPath, hc, h]

theorem splitPath_append (a b : Str) :
    splitPath (a ++ Separator :: b) = splitPath a ++ splitPath b := by
  induction a with
  | nil => simp [splitPath]
  | cons c a ih =>
    by_cases hc : c = Separator
    · subst hc
      rw [List.cons_append, splitPath_cons_sep, splitPath_cons_sep, ih]
      rfl
    · rw [List.cons_append, splitPath_cons_ne _ _ hc, splitPath_cons_ne _ _ hc, ih]
      cases h : splitPath a with
      | nil => exact absurd h (splitPath_ne_nil a)
      | cons x xs => simp

theorem splitPath_no_sep (s : Str) : ∀ c ∈ splitPath s, Separator ∉ c := by
  induction s with
  | nil => simp [splitPath]
  | cons c s ih =>
    by_cases hc : c = Separator
    · simp only [splitPath, hc, if_true]
      intro x hx
      rcases List.mem_cons.1 hx with h | h
      · simp [h]
      · exact ih x h
    · simp only [splitPath, hc, if_false]
      cases h : splitPath s with
      | nil => exact absurd h (splitPath_ne_nil s)
      | cons x xs =>
        rw [h] at ih
        intro y hy
        rcases List.mem_cons.1 hy with e | e
        · subst e
          have := ih x (by simp)
          simp only [List.mem_cons, not_or]
          exact ⟨fun e => hc e.symm, this⟩
        · exact ih y (by simp [e])

theorem joinPath_snoc (cs : List Str) (d : Str) (h : cs ≠ []) :
    joinPath (cs ++ [d]) = joinPath cs ++ Separator :: d := by
  induction cs with
  | nil => exact absurd rfl h
  | cons c cs ih =>
    cases cs with
    | nil => simp [joinPath]
    | cons e es =>
      have := ih (by simp)
      simp only [List.cons_append] at this ⊢
      simp [joinPath, this]

theorem splitPath_joinPath (cs : List Str) (h : cs ≠ []) (hs : ∀ c ∈ cs, Separator ∉ c) :
    splitPath (joinPath cs) = cs := by
  induction cs with
  | nil => exact absurd rfl h
  | cons c cs ih =>
    cases cs with
    | nil => simpa [joinPath] using splitPath_of_not_mem c (hs c (by simp))
    | cons e es =>
      have h1 := ih (by simp) (fun x hx => hs x (List.mem_cons_of_mem _ hx))
      simp only [joinPath]
      rw [splitPath_append, h1, splitPath_of_not_mem c (hs c (by simp))]
      rfl

theorem count_joinPath (cs : List Str) (hs : ∀ c ∈ cs, Separator ∉ c) :
    (joinPath cs).count Separator = cs.length - 1 := by
  induction cs with
  | nil => simp [joinPath]
  | cons c cs ih =>
    cases cs with
    | nil => simpa [joinPath] using List.count_eq_zero_of_not_mem (hs c (by simp))
    | cons e es =>
      have h1 := ih (fun x hx => hs x (List.mem_cons_of_mem _ hx))
      simp only [joinPath, List.count_append, List.count_cons_self,
        List.count_eq_zero_of_not_mem (hs c (by simp))]
      simp only [joinPath] at h1
      rw [h1]
      simp

theorem IsCleanStack.tail {rooted : Bool} {c : Str} {st : List Str}
    (h : IsCleanStack rooted (c :: st)) : IsCleanStack rooted st := h.2.2.2

theorem IsCleanStack.of_append {rooted : Bool} (l st : List Str)
    (h : IsCleanStack rooted (l ++ st)) : IsCleanStack rooted st := by
  induction l with
  | nil => exact h
  | cons c l ih => exact ih h.tail

theorem cleanStep_clean (rooted : Bool) (st : List Str) (c : Str)
    (h : IsCleanStack rooted st) : IsCleanStack rooted (cleanStep rooted st c) := by
  unfold cleanStep
  split
  · exact h
  · rename_i h1
    push_neg at h1
    split
    · rename_i h2
      cases st with
      | nil =>
        cases rooted with
        | true => simp [IsCleanStack]
        | false => simp [IsCleanStack, h2]
      | cons top rest =>
        by_cases ht : top = ['.', '.']
        · subst ht
          simp only [if_true]
          refine ⟨h1.1, h1.2, fun _ => ⟨?_, ?_⟩, h⟩
          · exact (h.2.2.1 rfl).1
          · intro d hd
            rcases List.mem_cons.1 hd with e | e
            · exact e
            · exact (h.2.2.1 rfl).2 d e
        · simp only [ht, if_false]
          exact h.tail
    · rename_i h2
      exact ⟨h1.1, h1.2, fun e => absurd e h2, h⟩

theorem foldl_cleanStep_clean (rooted : Bool) (l st : List Str)
    (h : IsCleanStack rooted st) : IsCleanStack rooted (l.foldl (cleanStep rooted) st) := by
  induction l generalizing st with
  | nil => exact h
  | cons c l ih => exact ih _ (cleanStep_clean rooted st c h)

theorem cleanStep_push (rooted : Bool) (st : List Str) (c : Str)
    (h : IsCleanStack rooted (c :: st)) : cleanStep rooted st c = c :: st := by
  obtain ⟨h1, h2, h3, _⟩ := h
  unfold cleanStep
  rw [if_neg (by simp [h1, h2])]
  by_cases hc : c = ['.', '.']
  · rw [if_pos hc]
    obtain ⟨hr, hd⟩ := h3 hc
    cases st with
    | nil => simp [hr]
    | cons top rest => simp [hd top (by simp)]
  · rw [if_neg hc]

theorem foldl_cleanStep_id (rooted : Bool) (l st : List Str)
    (h : IsCleanStack rooted (l.reverse ++ st)) :
    l.foldl (cleanStep rooted) st = l.reverse ++ st := by
  induction l generalizing st with
  | nil => rfl
  | cons c l ih =>
    have h1 : IsCleanStack rooted (l.reverse ++ c :: st) := by
      simpa [List.reverse_cons, List.append_assoc] using h
    rw [List.foldl_cons, cleanStep_push rooted st c (IsCleanStack.of_append _ _ h1), ih _ h1]
    simp

theorem cleanStep_mem (rooted : Bool) (st : List Str) (c d : Str)
    (h : d ∈ cleanStep rooted st c) : d = c ∨ d ∈ st := by
  unfold cleanStep at h
  split at h
  · exact Or.inr h
  · split at h
    · cases st with
      | nil =>
        cases rooted with
        | true => simp at h
        | false => simp at h; exact Or.inl h
      | cons top rest =>
        simp only at h
        split at h
        · rcases List.mem_cons.1 h with e | e
          · exact Or.inl e
          · exact Or.inr e
        · exact Or.inr (List.mem_cons_of_mem _ h)
    · rcases List.mem_cons.1 h with e | e
      · exact Or.inl e
      · exact Or.inr e

theorem foldl_cleanStep_mem (rooted : Bool) (l st : List Str) (d : Str)
    (h : d ∈ l.foldl (cleanStep rooted) st) : d ∈ l ∨ d ∈ st := by
  induction l generalizing st with
  | nil => exact Or.inr h
  | cons c l ih =>
    rcases ih _ h with e | e
    · exact Or.inl (List.mem_cons_of_mem _ e)
    · rcases cleanStep_mem rooted st c d e with e1 | e1
      · exact Or.inl (by simp [e1])
      · exact Or.inr e1

theorem IsCleanStack.ne_nil {rooted : Bool} {st : List Str} (h : IsCleanStack rooted st) :
    ∀ c ∈ st, c ≠ [] := by
  induction st with
  | nil => simp
  | cons c st ih =>
    intro d hd
    rcases List.mem_cons.1 hd with e | e
    · exact e ▸ h.1
    · exact ih h.tail d e

theorem cleanElems_clean (rooted : Bool) (l : List Str) (hl : ∀ c ∈ l, Separator ∉ c) :
    IsCleanElems rooted (cleanElems rooted l) := by
  refine ⟨?_, ?_⟩
  · simpa [cleanElems] using foldl_cleanStep_clean rooted l [] trivial
  · intro c hc
    simp only [cleanElems, List.mem_reverse] at hc
    rcases foldl_cleanStep_mem rooted l [] c hc with e | e
    · exact hl c e
    · simp at e

theorem cleanElems_splitPath_clean (rooted : Bool) (x : Str) :
    IsCleanElems rooted (cleanElems rooted (splitPath x)) :=
  cleanElems_clean rooted _ (splitPath_no_sep x)

theorem IsCleanElems.dropLast {rooted : Bool} {cs : List Str} (h : IsCleanElems rooted cs) :
    IsCleanElems rooted cs.dropLast := by
  refine ⟨?_, fun c hc => h.2 c (List.dropLast_subset cs hc)⟩
  rcases List.eq_nil_or_concat cs with e | ⟨l, d, e⟩
  · subst e; exact h.1
  · have e1 : cs = l ++ [d] := by simpa using e
    subst e1
    have h1 := h.1
    simp only [List.reverse_append, List.reverse_singleton, List.singleton_append] at h1
    simpa using h1.tail

theorem cleanElems_id (rooted : Bool) (cs : List Str) (h : IsCleanElems rooted cs) :
    cleanElems rooted cs = cs := by
  unfold cleanElems
  rw [foldl_cleanStep_id rooted cs [] (by simpa using h.1)]
  simp

theorem cleanStep_nil (rooted : Bool) (st : List Str) : cleanStep rooted st [] = st := by
  simp [cleanStep]

theorem foldl_splitPath_renderPath (rooted : Bool) (cs : List Str)
    (h : IsCleanElems rooted cs) :
    (splitPath (renderPath rooted cs)).foldl (cleanStep rooted) [] = cs.reverse := by
  have hid : cs.foldl (cleanStep rooted) [] = cs.reverse := by
    simpa using foldl_cleanStep_id rooted cs [] (by simpa using h.1)
  cases rooted with
  | true =>
    simp only [renderPath, if_true, splitPath_cons_sep, List.foldl_cons, cleanStep_nil]
    by_cases hcs : cs = []
    · subst hcs; simp [joinPath, splitPath, cleanStep]
    · rw [splitPath_joinPath cs hcs h.2, hid]
  | false =>
    by_cases hcs : cs = []
    · subst hcs; simp [renderPath, splitPath, cleanStep, Separator]
    · simp only [renderPath, hcs, if_false, Bool.false_eq_true]
      rw [splitPath_joinPath cs hcs h.2, hid]

theorem isRooted_renderPath (rooted : Bool) (cs : List Str) (h : IsCleanElems rooted cs) :
    isRooted (renderPath rooted cs) = rooted := by
  cases rooted with
  | true => simp [renderPath, isRooted]
  | false =>
    cases cs with
    | nil => simp [renderPath, isRooted, Separator]
    | cons c cs =>
      have hc : c ≠ [] := h.1.ne_nil c (by simp)
      have hs : Separator ∉ c := h.2 c (by simp)
      cases c with
      | nil => exact absurd rfl hc
      | cons x xs =>
        have hx : x ≠ Separator := fun e => hs (by simp [e])
        cases cs with
        | nil => simp [renderPath, joinPath, isRooted, hx]
        | cons e es => simp [renderPath, joinPath, isRooted, hx]

/-! ### `filepath.Clean` and its description on path elements -/

theorem joinPath_ne_nil (cs : List Str) (h : cs ≠ []) (hne : ∀ c ∈ cs, c ≠ []) :
    joinPath cs ≠ [] := by
  cases cs with
  | nil => exact absurd rfl h
  | cons c cs =>
    have hc := hne c (by simp)
    cases cs with
    | nil => simpa [joinPath] using hc
    | cons e es => simp [joinPath, hc]

theorem bufOf_nil (rooted : Bool) :
    bufOf rooted [] = if rooted then [Separator] else [] := by
  cases rooted <;> rfl

theorem bufOf_cons (rooted : Bool) (top : Str) (below : List Str) :
    bufOf rooted (top :: below) =
      bufOf rooted below ++ (if below = [] then top else Separator :: top) := by
  by_cases hb : below = []
  · subst hb
    cases rooted <;> simp [bufOf, joinPath]
  · have := joinPath_snoc below.reverse top (by simpa using hb)
    cases rooted <;> simp [bufOf, this, hb]

theorem bufOf_length_pos (rooted : Bool) (st : List Str) (h : IsCleanStack rooted st)
    (hst : st ≠ []) : (if rooted then 1 else 0) < (bufOf rooted st).length := by
  have hj : joinPath st.reverse ≠ [] :=
    joinPath_ne_nil _ (by simpa using hst) (fun c hc => h.ne_nil c (by simpa using hc))
  have := List.length_pos.2 hj
  cases rooted <;> simp [bufOf] <;> omega

theorem dotdotOf_le (rooted : Bool) (st : List Str) :
    dotdotOf rooted st ≤ (bufOf rooted st).length := by
  induction st with
  | nil => cases rooted <;> simp [dotdotOf, bufOf, joinPath]
  | cons c st ih =>
    unfold dotdotOf
    split
    · exact le_refl _
    · rw [bufOf_cons]
      simp only [List.length_append]
      omega

theorem dotdotOf_nil (rooted : Bool) : dotdotOf rooted [] = (bufOf rooted []).length := by
  cases rooted <;> rfl

theorem backtrackLoop_spec (a s : List Char) (dotdot : Nat) (hdd : dotdot ≤ a.length)
    (hstop : a.length = dotdot ∨ s.head? = some Separator) (k : Nat) (hk : k < s.length)
    (hno : ∀ i, 0 < i → i ≤ k → s[i]? ≠ some Separator) :
    backtrackLoop (a ++ s) dotdot (a.length + k) = a.length := by
  induction k with
  | zero =>
    cases hl : a.length with
    | zero => rfl
    | succ w =>
      simp only [Nat.add_zero, backtrackLoop]
      rw [if_neg]
      rintro ⟨h1, h2⟩
      rcases hstop with h | h
      · omega
      · apply h2
        have : (a ++ s)[w + 1]? = s[0]? := by
          rw [← hl, List.getElem?_append_right (le_refl _)]
          simp
        rw [this]
        cases s with
        | nil => simp at h
        | cons x xs => simpa using h
  | succ k ih =>
    have h1 : a.length + (k + 1) = (a.length + k) + 1 := by omega
    rw [h1]
    simp only [backtrackLoop]
    rw [if_pos]
    · exact ih (by omega) (fun i hi hik => hno i hi (by omega))
    · refine ⟨by omega, ?_⟩
      have : (a ++ s)[a.length + k + 1]? = s[k + 1]? := by
        rw [List.getElem?_append_right (by omega)]
        congr 1
        omega
      rw [this]
      exact hno (k + 1) (by omega) (le_refl _)

theorem cleanLoop_nil (rooted : Bool) (fuel : Nat) (out : List Char) (dotdot : Nat) :
    cleanLoop rooted fuel [] out dotdot = out := by
  cases fuel <;> rfl

/-- The `..` case on the buffer: backtracking removes the top element. -/
theorem backtrack_bufOf (rooted : Bool) (top : Str) (below : List Str)
    (h : IsCleanStack rooted (top :: below)) (hsep : Separator ∉ top) :
    (bufOf rooted (top :: below)).take
      (backtrackLoop (bufOf rooted (top :: below)) (dotdotOf rooted below)
        ((bufOf rooted (top :: below)).length - 1)) = bufOf rooted below := by
  have htop : top ≠ [] := h.1
  rw [bufOf_cons]
  by_cases hb : below = []
  · subst hb
    simp only [if_true]
    have hlen : 0 < top.length := List.length_pos.2 htop
    have := backtrackLoop_spec (bufOf rooted []) top (dotdotOf rooted [])
      (dotdotOf_le rooted []) (Or.inl (dotdotOf_nil rooted).symm) (top.length - 1) (by omega)
      (fun i _ _ hi => hsep (List.getElem?_mem hi))
    have e : (bufOf rooted [] ++ top).length - 1 = (bufOf rooted []).length + (top.length - 1) := by
      simp only [List.length_append]; omega
    rw [e, this]
    simp
  · simp only [hb, if_false]
    have := backtrackLoop_spec (bufOf rooted below) (Separator :: top) (dotdotOf rooted below)
      (dotdotOf_le rooted below) (Or.inr rfl) top.length (by simp)
      (fun i hi _ hg => by
        cases i with
        | zero => omega
        | succ j =>
          simp only [List.getElem?_cons_succ] at hg
          exact hsep (List.getElem?_mem hg))
    have e : (bufOf rooted below ++ Separator :: top).length - 1 =
        (bufOf rooted below).length + top.length := by
      simp only [List.length_append, List.length_cons]; omega
    rw [e, this]
    simp

theorem foldl_splitPath_append (rooted : Bool) (st : List Str) (e r : List Char)
    (he : Separator ∉ e) (hr : r = [] ∨ r.head? = some Separator) :
    (splitPath (e ++ r)).foldl (cleanStep rooted) st =
      (splitPath r).foldl (cleanStep rooted) (cleanStep rooted st e) := by
  cases r with
  | nil =>
    simp [splitPath_of_not_mem e he, splitPath, cleanStep_nil]
  | cons x r1 =>
    have hx : x = Separator := by
      rcases hr with h | h
      · simp at h
      · simpa using h
    subst hx
    rw [splitPath_append, splitPath_of_not_mem e he, splitPath_cons_sep]
    simp [cleanStep_nil]

theorem takeWhile_cons_ne (c : Char) (t : List Char) (hc : c ≠ Separator) :
    (c :: t).takeWhile (fun x => x != Separator) =
      c :: t.takeWhile (fun x => x != Separator) := by
  have : (c != Separator) = true := by simpa using hc
  rw [List.takeWhile_cons, this]
  rfl

theorem takeWhile_cons_sep (t : List Char) :
    (Separator :: t).takeWhile (fun x => x != Separator) = [] := by
  rw [List.takeWhile_cons]
  simp

theorem dropWhile_cons_ne (c : Char) (t : List Char) (hc : c ≠ Separator) :
    (c :: t).dropWhile (fun x => x != Separator) = t.dropWhile (fun x => x != Separator) := by
  have : (c != Separator) = true := by simpa using hc
  rw [List.dropWhile_cons, this]
  rfl

theorem takeWhile_eq_nil_iff_sep (t : List Char) :
    t.takeWhile (fun x => x != Separator) = [] ↔ t = [] ∨ t.head? = some Separator := by
  cases t with
  | nil => simp
  | cons x t =>
    by_cases hx : x = Separator
    · subst hx; simp [takeWhile_cons_sep]
    · simp [takeWhile_cons_ne _ _ hx, hx]

theorem dropWhile_sep (t : List Char) :
    t.dropWhile (fun x => x != Separator) = [] ∨
      (t.dropWhile (fun x => x != Separator)).head? = some Separator := by
  induction t with
  | nil => simp
  | cons x t ih =>
    by_cases hx : x = Separator
    · right; simp [List.dropWhile_cons, hx]
    · rw [dropWhile_cons_ne _ _ hx]
      exact ih

theorem takeWhile_no_sep (t : List Char) :
    Separator ∉ t.takeWhile (fun x => x != Separator) := by
  intro h
  have := List.mem_takeWhile_imp h
  simp at this

theorem dotdotOf_cons_ne (rooted : Bool) (top : Str) (below : List Str)
    (h : top ≠ ['.', '.']) : dotdotOf rooted (top :: below) = dotdotOf rooted below := by
  simp [dotdotOf, h]

theorem dotdotOf_lt (rooted : Bool) (top : Str) (below : List Str)
    (h : IsCleanStack rooted (top :: below)) (htop : top ≠ ['.', '.']) :
    dotdotOf rooted (top :: below) < (bufOf rooted (top :: below)).length := by
  rw [dotdotOf_cons_ne _ _ _ htop, bufOf_cons]
  have h1 := dotdotOf_le rooted below
  have h2 : 0 < top.length := List.length_pos.2 h.1
  by_cases hb : below = []
  · subst hb
    simp only [if_true, List.length_append]
    omega
  · simp only [hb, if_false, List.length_append, List.length_cons]
    omega

theorem dotdotOf_all (rooted : Bool) (st : List Str) (h : ∀ d ∈ st, d = ['.', '.']) :
    dotdotOf rooted st = (bufOf rooted st).length := by
  cases st with
  | nil => exact dotdotOf_nil rooted
  | cons c st => simp [dotdotOf, h c (by simp)]

/-- The main loop of `Clean`, started on the buffer of a clean stack, ends
on the buffer of the stack after the elements left to read. -/
theorem cleanLoop_eq (rooted : Bool) (fuel : Nat) :
    ∀ (rest : List Char) (st : List Str), rest.length ≤ fuel → IsCleanStack rooted st →
      (∀ c ∈ st, Separator ∉ c) →
      cleanLoop rooted fuel rest (bufOf rooted st) (dotdotOf rooted st) =
        bufOf rooted ((splitPath rest).foldl (cleanStep rooted) st) := by
  induction fuel with
  | zero =>
    intro rest st hf _ _
    have : rest = [] := List.length_eq_zero.1 (Nat.le_zero.1 hf)
    subst this
    simp [cleanLoop, splitPath, cleanStep_nil]
  | succ fuel ih =>
    intro rest st hf hst hsep
    cases rest with
    | nil => simp [cleanLoop, splitPath, cleanStep_nil]
    | cons c t =>
      have hft : t.length ≤ fuel := by simpa using hf
      unfold cleanLoop
      by_cases hc : c = Separator
      · -- empty path element
        subst hc
        rw [if_pos rfl, splitPath_cons_sep, List.foldl_cons, cleanStep_nil]
        exact ih t st hft hst hsep
      · rw [if_neg hc]
        by_cases hdot : c = '.' ∧ (t = [] ∨ t.head? = some Separator)
        · -- . element
          rw [if_pos hdot]
          obtain ⟨rfl, ht⟩ := hdot
          have := foldl_splitPath_append rooted st ['.'] t (by decide) ht
          simp only [List.singleton_append] at this
          rw [this, ih t st hft hst hsep]
          simp [cleanStep]
        · rw [if_neg hdot]
          by_cases hdd : c = '.' ∧ t.head? = some '.' ∧
              (t.tail = [] ∨ t.tail.head? = some Separator)
          · -- .. element
            rw [if_pos hdd]
            obtain ⟨rfl, h1, ht2⟩ := hdd
            cases t with
            | nil => simp at h1
            | cons x t2 =>
              have hx : x = '.' := by simpa using h1
              subst hx
              simp only [List.tail_cons] at ht2 ⊢
              have hft2 : t2.length ≤ fuel := by
                simp only [List.length_cons] at hft; omega
              have hsplit := foldl_splitPath_append rooted st ['.', '.'] t2 (by decide) ht2
              simp only [List.cons_append, List.nil_append] at hsplit
              rw [hsplit]
              have hst1 := cleanStep_clean rooted st ['.', '.'] hst
              have hsep1 : ∀ d ∈ cleanStep rooted st ['.', '.'], Separator ∉ d := by
                intro d hd
                rcases cleanStep_mem rooted st _ d hd with e | e
                · subst e; decide
                · exact hsep d e
              rw [← ih t2 _ hft2 hst1 hsep1]
              cases st with
              | nil =>
                rw [if_neg (by rw [dotdotOf_nil]; exact Nat.lt_irrefl _)]
                cases rooted with
                | true => simp [cleanStep]
                | false => simp [cleanStep, bufOf, dotdotOf, joinPath]
              | cons top below =>
                by_cases htop : top = ['.', '.']
                · subst htop
                  have hall := hst.2.2.1 rfl
                  have hr : rooted = false := hall.1
                  subst hr
                  have hd : dotdotOf false (['.', '.'] :: below) =
                      (bufOf false (['.', '.'] :: below)).length := by simp [dotdotOf]
                  rw [if_neg (by rw [hd]; exact Nat.lt_irrefl _)]
                  have hpos : 0 < (bufOf false (['.', '.'] :: below)).length := by
                    have := bufOf_length_pos false _ hst (by simp)
                    simpa using this
                  have hstep : cleanStep false (['.', '.'] :: below) ['.', '.'] =
                      ['.', '.'] :: ['.', '.'] :: below := by simp [cleanStep]
                  have hb : bufOf false (['.', '.'] :: ['.', '.'] :: below) =
                      bufOf false (['.', '.'] :: below) ++ [Separator] ++ ['.', '.'] := by
                    rw [bufOf_cons false ['.', '.'] (['.', '.'] :: below)]
                    simp
                  simp only [Bool.not_false, if_true, hpos, hstep]
                  rw [hb]
                  simp [dotdotOf, hb]
                · rw [if_pos (dotdotOf_lt rooted top below hst htop)]
                  have hstep : cleanStep rooted (top :: below) ['.', '.'] = below := by
                    simp [cleanStep, htop]
                  rw [hstep, dotdotOf_cons_ne _ _ _ htop,
                    backtrack_bufOf rooted top below hst (hsep top (by simp))]
          · -- real path element
            rw [if_neg hdd]
            have hsplit := foldl_splitPath_append rooted st
              ((c :: t).takeWhile (fun x => x != Separator))
              ((c :: t).dropWhile (fun x => x != Separator)) (takeWhile_no_sep _)
              (dropWhile_sep _)
            rw [List.takeWhile_append_dropWhile] at hsplit
            rw [hsplit]
            have htw := takeWhile_cons_ne c t hc
            have hdw := dropWhile_cons_ne c t hc
            have hne1 : c :: t.takeWhile (fun x => x != Separator) ≠ ['.'] := by
              intro h
              simp only [List.cons.injEq] at h
              exact hdot ⟨h.1, (takeWhile_eq_nil_iff_sep t).1 h.2⟩
            have hne2 : c :: t.takeWhile (fun x => x != Separator) ≠ ['.', '.'] := by
              intro h
              simp only [List.cons.injEq] at h
              obtain ⟨h1, h2⟩ := h
              cases t with
              | nil => simp at h2
              | cons x t2 =>
                by_cases hx : x = Separator
                · subst hx
                  rw [takeWhile_cons_sep] at h2
                  simp at h2
                · rw [takeWhile_cons_ne _ _ hx] at h2
                  simp only [List.cons.injEq] at h2
                  exact hdd ⟨h1, by simp [h2.1],
                    by simpa using (takeWhile_eq_nil_iff_sep t2).1 h2.2⟩
            have hstep : cleanStep rooted st (c :: t.takeWhile (fun x => x != Separator)) =
                (c :: t.takeWhile (fun x => x != Separator)) :: st := by
              simp [cleanStep, hne1, hne2]
            have hst1 : IsCleanStack rooted
                ((c :: t.takeWhile (fun x => x != Separator)) :: st) :=
              ⟨by simp, hne1, fun e => absurd e hne2, hst⟩
            have hsep1 : ∀ d ∈ (c :: t.takeWhile (fun x => x != Separator)) :: st,
                Separator ∉ d := by
              intro d hd
              rcases List.mem_cons.1 hd with e | e
              · subst e; rw [← htw]; exact takeWhile_no_sep _
              · exact hsep d e
            have hlen : (t.dropWhile (fun x => x != Separator)).length ≤ fuel :=
              le_trans (List.dropWhile_sublist _).length_le hft
            rw [htw, hdw, hstep, ← ih _ _ hlen hst1 hsep1, dotdotOf_cons_ne _ _ _ hne2,
              bufOf_cons]
            congr 1
            by_cases hb : st = []
            · subst hb
              cases rooted <;> simp [bufOf, joinPath]
            · have := bufOf_length_pos rooted st hst hb
              cases rooted
              · simp only [Bool.false_eq_true, if_false] at this
                have h0 : (bufOf false st).length ≠ 0 := by omega
                simp [hb, h0]
              · simp only [if_true] at this
                have h1 : (bufOf true st).length ≠ 1 := by omega
                simp [hb, h1]

/-- `filepath.Clean` does what its documentation says. -/
theorem Clean_eq_renderPath (x : Str) :
    Clean x = renderPath (isRooted x) (cleanElems (isRooted x) (splitPath x)) := by
  cases x with
  | nil => decide
  | cons c t =>
    unfold Clean
    rw [if_neg (by simp)]
    have hclean := cleanElems_splitPath_clean (isRooted (c :: t)) (c :: t)
    by_cases hc : c = Separator
    · subst hc
      have hr : isRooted (Separator :: t) = true := by simp [isRooted]
      have := cleanLoop_eq true (Separator :: t).length t [] (by simp) trivial (by simp)
      simp only [hr, if_true, List.tail_cons]
      have hb : bufOf true [] = [Separator] := rfl
      have hd : dotdotOf true [] = 1 := rfl
      rw [hb, hd] at this
      rw [this, splitPath_cons_sep]
      simp [bufOf, renderPath, cleanElems, cleanStep_nil]
    · have hr : isRooted (c :: t) = false := by simp [isRooted, hc]
      have := cleanLoop_eq false (c :: t).length (c :: t) [] (le_refl _) trivial (by simp)
      simp only [hr, Bool.false_eq_true, if_false]
      have hb : bufOf false [] = [] := rfl
      have hd : dotdotOf false [] = 0 := rfl
      rw [hb, hd] at this
      rw [this]
      rw [hr] at hclean
      simp only [bufOf, renderPath, cleanElems, Bool.false_eq_true, if_false]
      by_cases he : ((splitPath (c :: t)).foldl (cleanStep false) []).reverse = []
      · simp [he, joinPath]
      · have hj := joinPath_ne_nil _ he (fun d hd => hclean.1.ne_nil d (by
          simpa [cleanElems] using hd))
        have hl : (joinPath ((splitPath (c :: t)).foldl (cleanStep false) []).reverse).length
            ≠ 0 := by
          intro h0
          exact hj (List.length_eq_zero.1 h0)
        simp [he, hl]

theorem Clean_renderPath (rooted : Bool) (cs : List Str) (h : IsCleanElems rooted cs) :
    Clean (renderPath rooted cs) = renderPath rooted cs := by
  rw [Clean_eq_renderPath]
  unfold cleanElems
  rw [isRooted_renderPath rooted cs h, foldl_splitPath_renderPath rooted cs h]
  simp

theorem renderPath_ne_nil (rooted : Bool) (cs : List Str) (h : IsCleanElems rooted cs) :
    renderPath rooted cs ≠ [] := by
  cases rooted with
  | true => simp [renderPath]
  | false =>
    cases cs with
    | nil => simp [renderPath]
    | cons c cs =>
      have hc : c ≠ [] := h.1.ne_nil c (by simp)
      cases cs with
      | nil => simpa [renderPath, joinPath] using hc
      | cons e es => simp [renderPath, joinPath, hc]

theorem Clean_ne_nil (x : Str) : Clean x ≠ [] := by
  rw [Clean_eq_renderPath]
  exact renderPath_ne_nil _ _ (cleanElems_splitPath_clean _ x)

theorem isRooted_append (x y : Str) (hx : x ≠ []) : isRooted (x ++ y) = isRooted x := by
  cases x with
  | nil => exact absurd rfl hx
  | cons c x => rfl

theorem Clean_append (x y : Str) (hx : x ≠ []) :
    Clean (x ++ Separator :: y) =
      renderPath (isRooted x)
        ((splitPath y).foldl (cleanStep (isRooted x))
          ((splitPath x).foldl (cleanStep (isRooted x)) [])).reverse := by
  rw [Clean_eq_renderPath]
  unfold cleanElems
  rw [isRooted_append x _ hx, splitPath_append, List.foldl_append]

theorem dirPart_of_not_mem (s : Str) (h : Separator ∉ s) : dirPart s = [] := by
  cases s with
  | nil => rfl
  | cons c s =>
    have hc : c ≠ Separator := fun e => h (by simp [e])
    have hs : Separator ∉ s := fun e => h (List.mem_cons_of_mem _ e)
    simp [dirPart, hc, hs]

theorem dirPart_append (a d : Str) (h : Separator ∉ d) :
    dirPart (a ++ Separator :: d) = a ++ [Separator] := by
  induction a with
  | nil => simp [dirPart, h]
  | cons c a ih => simp [dirPart, ih]

theorem Clean_append_sep (x : Str) (hx : x ≠ []) :
    Clean (x ++ [Separator]) = Clean x := by
  rw [Clean_append x [] hx, Clean_eq_renderPath]
  simp [splitPath, cleanStep_nil, cleanElems]

theorem Dir_renderPath (rooted : Bool) (cs : List Str) (h : IsCleanElems rooted cs) :
    Dir (renderPath rooted cs) = renderPath rooted cs.dropLast := by
  rcases List.eq_nil_or_concat cs with e | ⟨l, d, e⟩
  · subst e
    cases rooted <;> decide
  · have e1 : cs = l ++ [d] := by simpa using e
    subst e1
    have hd : Separator ∉ d := h.2 d (by simp)
    have hl : IsCleanElems rooted l := by simpa using h.dropLast
    rw [List.dropLast_concat]
    unfold Dir
    by_cases hnil : l = []
    · subst hnil
      cases rooted with
      | true =>
        have : dirPart (renderPath true ([] ++ [d])) = [Separator] := by
          simpa [renderPath, joinPath] using dirPart_append [] d hd
        rw [this]; decide
      | false =>
        have : dirPart (renderPath false ([] ++ [d])) = [] := by
          simpa [renderPath, joinPath] using dirPart_of_not_mem d hd
        rw [this]; decide
    · have hr : renderPath rooted (l ++ [d]) = renderPath rooted l ++ Separator :: d := by
        cases rooted with
        | true => simp [renderPath, joinPath_snoc l d hnil]
        | false => simp [renderPath, hnil, joinPath_snoc l d hnil]
      rw [hr, dirPart_append _ _ hd, Clean_append_sep _ (renderPath_ne_nil _ _ hl),
        Clean_renderPath _ _ hl]

theorem count_renderPath (rooted : Bool) (cs : List Str) (h : IsCleanElems rooted cs) :
    (renderPath rooted cs).count Separator = (if rooted then 1 else 0) + (cs.length - 1) := by
  cases rooted with
  | true =>
    simp [renderPath, count_joinPath cs h.2]
    omega
  | false =>
    by_cases hcs : cs = []
    · subst hcs; decide
    · simp [renderPath, hcs, count_joinPath cs h.2]

/-- Appending elements that are kept as they are to a cleaned path. -/
theorem Clean_renderPath_append (rooted : Bool) (cs ds : List Str)
    (h : IsCleanElems rooted (cs ++ ds)) (hds : ds ≠ []) :
    Clean (renderPath rooted cs ++ Separator :: joinPath ds) = renderPath rooted (cs ++ ds) := by
  have hcs : IsCleanElems rooted cs := by
    refine ⟨?_, fun c hc => h.2 c (List.mem_append_left _ hc)⟩
    have := h.1
    rw [List.reverse_append] at this
    exact IsCleanStack.of_append _ _ this
  have hdsep : ∀ c ∈ ds, Separator ∉ c := fun c hc => h.2 c (List.mem_append_right _ hc)
  rw [Clean_append _ _ (renderPath_ne_nil _ _ hcs), isRooted_renderPath _ _ hcs,
    foldl_splitPath_renderPath _ _ hcs, splitPath_joinPath ds hds hdsep,
    foldl_cleanStep_id rooted ds cs.reverse (by simpa [List.reverse_append] using h.1)]
  simp

theorem strictlyUnder_iff (root p : Str) :
    strictlyUnder root p = true ↔ ∃ rest : Str, rest ≠ [] ∧ p = root ++ Separator :: rest := by
  unfold strictlyUnder
  rw [Bool.and_eq_true, HasPrefix_iff, decide_eq_true_iff]
  constructor
  · rintro ⟨⟨t, ht⟩, hlen⟩
    refine ⟨t, ?_, by simp [← ht]⟩
    rintro rfl
    simp [← ht] at hlen
  · rintro ⟨rest, hne, rfl⟩
    refine ⟨⟨rest, by simp⟩, ?_⟩
    have : 0 < rest.length := List.length_pos.2 hne
    simp; omega

theorem Join_pair (a b : Str) (ha : a ≠ []) :
    Join [a, b] = Clean (a ++ Separator :: b) := by
  simp [Join, ha, joinPath]

theorem Join_eq_nil_or_Clean (l : List Str) : Join l = [] ∨ ∃ x, Join l = Clean x := by
  induction l with
  | nil => exact Or.inl rfl
  | cons e es ih =>
    by_cases he : e = []
    · simpa [Join, he] using ih
    · exact Or.inr ⟨joinPath (e :: es), by simp [Join, he]⟩

theorem IsCleanElems.snoc {rooted : Bool} {cs : List Str} (h : IsCleanElems rooted cs)
    (c : Str) (hc : isLeafName c = true) : IsCleanElems rooted (cs ++ [c]) := by
  simp only [isLeafName, Bool.and_eq_true, bne_iff_ne, ne_eq, Bool.not_eq_true', List.contains_eq_any_beq,
    List.any_eq_false, beq_iff_eq] at hc
  obtain ⟨⟨⟨h1, h2⟩, h3⟩, h4⟩ := hc
  refine ⟨?_, ?_⟩
  · rw [List.reverse_append]
    exact ⟨h1, h3, fun e => absurd e h4, h.1⟩
  · intro d hd
    rcases List.mem_append.1 hd with e | e
    · exact h.2 d e
    · simp at e; subst e; exact fun hm => h2 _ hm rfl

theorem legacyDir_renderPath (rooted : Bool) (cs : List Str) (h : IsCleanElems rooted cs) :
    Join [Dir (renderPath rooted cs), oldVfsDir] =
      renderPath rooted (cs.dropLast ++ ["vfs".toList, "dir".toList]) := by
  have hv : oldVfsDir = joinPath ["vfs".toList, "dir".toList] := by decide
  have h2 : IsCleanElems rooted (cs.dropLast ++ ["vfs".toList, "dir".toList]) := by
    have := (h.dropLast.snoc "vfs".toList (by decide)).snoc "dir".toList (by decide)
    simpa using this
  rw [Dir_renderPath _ _ h, Join_pair _ _ (renderPath_ne_nil _ _ h.dropLast), hv,
    Clean_renderPath_append _ _ _ h2 (by simp)]

theorem not_HasPrefix_legacy (scope base : Str) :
    HasPrefix (Join [scope, base]) (Join [Dir (Join [scope, base]), oldVfsDir]) = false := by
  rcases Join_eq_nil_or_Clean [scope, base] with h0 | ⟨x, hx⟩
  · rw [h0]; decide
  · rw [hx]
    have hc := cleanElems_splitPath_clean (isRooted x) x
    rw [Clean_eq_renderPath, legacyDir_renderPath _ _ hc]
    have hc2 : IsCleanElems (isRooted x)
        ((cleanElems (isRooted x) (splitPath x)).dropLast ++ ["vfs".toList, "dir".toList]) := by
      have := (hc.dropLast.snoc "vfs".toList (by decide)).snoc "dir".toList (by decide)
      simpa using this
    apply Bool.eq_false_iff.2
    intro hp
    have hsub := ((HasPrefix_iff _ _).1 hp).sublist.count_le Separator
    rw [count_renderPath _ _ hc, count_renderPath _ _ hc2] at hsub
    simp at hsub

theorem joinPath_append (cs ds : List Str) (hc : cs ≠ []) (hd : ds ≠ []) :
    joinPath (cs ++ ds) = joinPath cs ++ Separator :: joinPath ds := by
  induction cs with
  | nil => exact absurd rfl hc
  | cons c cs ih =>
    cases cs with
    | nil =>
      cases ds with
      | nil => exact absurd rfl hd
      | cons d ds => simp [joinPath]
    | cons e es =>
      have := ih (by simp)
      simp only [List.cons_append] at this ⊢
      simp [joinPath, this]

theorem renderPath_append (rooted : Bool) (cs ds : List Str) (hc : cs ≠ []) (hd : ds ≠ []) :
    renderPath rooted (cs ++ ds) = renderPath rooted cs ++ Separator :: joinPath ds := by
  cases rooted with
  | true => simp [renderPath, joinPath_append cs ds hc hd]
  | false => simp [renderPath, hc, joinPath_append cs ds hc hd]

theorem isLeafName_ne_nil (d : Str) (hd : isLeafName d = true) : d ≠ [] := by
  rintro rfl
  simp [isLeafName] at hd

theorem cleanStep_leaf (rooted : Bool) (st : List Str) (d : Str) (hd : isLeafName d = true) :
    cleanStep rooted st d = d :: st := by
  simp only [isLeafName, Bool.and_eq_true, bne_iff_ne, ne_eq] at hd
  obtain ⟨⟨⟨h1, _⟩, h3⟩, h4⟩ := hd
  simp [cleanStep, h1, h3, h4]

theorem splitPath_leaf (d : Str) (hd : isLeafName d = true) : splitPath d = [d] := by
  apply splitPath_of_not_mem
  simp only [isLeafName, Bool.and_eq_true, bne_iff_ne, ne_eq, Bool.not_eq_true',
    List.contains_eq_any_beq, List.any_eq_false, beq_iff_eq] at hd
  exact fun hm => hd.1.1.2 _ hm rfl

/-- The parent of a cleaned path that ends in one more plain name. -/
theorem Dir_Clean_snoc_leaf (x d : Str) (hx : x ≠ []) (hd : isLeafName d = true) :
    Dir (Clean (x ++ Separator :: d)) = Clean x := by
  have hc := cleanElems_splitPath_clean (isRooted x) x
  have h1 : Clean (x ++ Separator :: d) =
      renderPath (isRooted x) (cleanElems (isRooted x) (splitPath x) ++ [d]) := by
    rw [Clean_append _ _ hx, splitPath_leaf d hd]
    simp [cleanStep_leaf _ _ d hd, cleanElems]
  rw [h1, Dir_renderPath _ _ (hc.snoc d hd), List.dropLast_concat, Clean_eq_renderPath]

/-- Joining one more element onto elements that are not all empty. -/
theorem Join_snoc (l : List Str) (d : Str) :
    (∀ x ∈ l, x = []) ∨
    ∃ x, x ≠ [] ∧ Join l = Clean x ∧ Join (l ++ [d]) = Clean (x ++ Separator :: d) := by
  induction l with
  | nil => left; simp
  | cons e es ih =>
    by_cases he : e = []
    · subst he
      rcases ih with h | ⟨x, hx, h1, h2⟩
      · left
        intro y hy
        rcases List.mem_cons.1 hy with e1 | e1
        · exact e1
        · exact h y e1
      · right
        exact ⟨x, hx, by simpa [Join] using h1, by simpa [Join] using h2⟩
    · right
      have hx : joinPath (e :: es) ≠ [] := by
        cases es with
        | nil => simpa [joinPath] using he
        | cons f fs => simp [joinPath, he]
      refine ⟨joinPath (e :: es), hx, by simp [Join, he], ?_⟩
      have := joinPath_snoc (e :: es) d (by simp)
      simp only [List.cons_append] at this
      simp [Join, he, this]

theorem Dir_dataPath (name rootPath : Str) (h : rootPath ≠ [] ∨ name ≠ []) :
    Dir (dataPath name rootPath) = Join [rootPath, name] := by
  have hd : isLeafName VolumeDataPathName = true := by decide
  rcases Join_snoc [rootPath, name] VolumeDataPathName with h0 | ⟨x, hx, h1, h2⟩
  · rcases h with h | h
    · exact absurd (h0 rootPath (by simp)) h
    · exact absurd (h0 name (by simp)) h
  · have h3 : dataPath name rootPath = Clean (x ++ Separator :: VolumeDataPathName) := by
      simpa [dataPath] using h2
    rw [h3, h1, Dir_Clean_snoc_leaf x _ hx hd]

/-- The data path of a plainly named volume under a cleaned root other than
`/` and `.`, written out. -/
theorem dataPath_eq_append (name rootPath : Str) (hclean : Clean rootPath = rootPath)
    (h1 : rootPath ≠ [Separator]) (h2 : rootPath ≠ ['.']) (hn : isLeafName name = true) :
    dataPath name rootPath =
      rootPath ++ Separator :: (name ++ Separator :: VolumeDataPathName) := by
  have hc := cleanElems_splitPath_clean (isRooted rootPath) rootPath
  have hr := Clean_eq_renderPath rootPath
  rw [hclean] at hr
  have hcs : cleanElems (isRooted rootPath) (splitPath rootPath) ≠ [] := by
    intro h0
    rw [h0] at hr
    cases hrt : isRooted rootPath with
    | true => rw [hrt] at hr; exact h1 (by simpa [renderPath, joinPath] using hr)
    | false => rw [hrt] at hr; exact h2 (by simpa [renderPath] using hr)
  have hp : rootPath ≠ [] := by rw [← hclean]; exact Clean_ne_nil _
  have hnn : name ≠ [] := isLeafName_ne_nil name hn
  have hj : dataPath name rootPath =
      Clean (rootPath ++ Separator :: joinPath [name, VolumeDataPathName]) := by
    simp [dataPath, Join, hp, joinPath]
  have hd : isLeafName VolumeDataPathName = true := by decide
  have hall : IsCleanElems (isRooted rootPath)
      (cleanElems (isRooted rootPath) (splitPath rootPath) ++ [name, VolumeDataPathName]) := by
    have := (hc.snoc name hn).snoc VolumeDataPathName hd
    simpa using this
  rw [hj]
  nth_rewrite 1 [hr]
  rw [Clean_renderPath_append _ _ _ hall (by simp), renderPath_append _ _ _ hcs (by simp), ← hr]
  simp [joinPath]

/-! ## The scoped-path check -/

/-- C1 (the code departs from the claim): with the managed root
`/var/lib/docker/volumes`, `scopedPath` accepts the real path
`/var/lib/docker/volumes-old/data`, which is neither a strict descendant of
the managed root nor under the legacy location; `Remove` of a volume whose
data directory is a symbolic link to it then calls `os.RemoveAll` on that
sibling directory. -/
theorem scopedPath_accepts_sibling :
    dockerRoot.scopedPath "/var/lib/docker/volumes-old/data".toList = true ∧
    dockerRoot.scopedPathWindows "/var/lib/docker/volumes-old/data".toList = true ∧
    strictlyUnder dockerRoot.path "/var/lib/docker/volumes-old/data".toList = false ∧
    dockerRoot.underLegacy "/var/lib/docker/volumes-old/data".toList = false ∧
    (dockerRoot.Remove toyEnv siblingFS (.localVol dbVolume)).calls =
      [Call.EvalSymlinks "/var/lib/docker/volumes/db/_data".toList,
       Call.RemoveAll "/var/lib/docker/volumes-old/data".toList,
       Call.RemoveAll "/var/lib/docker/volumes/db".toList] := by
  refine ⟨by decide, by decide, by decide, by decide, by decide⟩

/-- C2: whatever the scope and the base path name, the managed root
`filepath.Join(scope, base)` is rejected by `scopedPath`: the new-layout
branch fails on the exact equality, the legacy branch because the root does
not start with `<dirname(root)>/vfs/dir`; the Windows variant rejects the
managed root whatever path it is. -/
theorem scopedPath_rejects_root (r : Root) (scope base : Str) :
    (HasPrefix (Join [scope, base]) (Join [scope, base]) &&
      Join [scope, base] != Join [scope, base]) = false ∧
    HasPrefix (Join [scope, base]) (Join [Dir (Join [scope, base]), oldVfsDir]) = false ∧
    ({ r with path := Join [scope, base] } : Root).scopedPath (Join [scope, base]) = false ∧
    (∀ p : Str, ({ r with path := p } : Root).scopedPathWindows p = false) := by
  have h2 := not_HasPrefix_legacy scope base
  refine ⟨by simp, h2, ?_, fun p => by simp [Root.scopedPathWindows]⟩
  simp [Root.scopedPath, h2]

/-! ## `Remove` -/

/-- C3: when `RealPath()` of a local volume resolves to a path that
`scopedPath` rejects, `Remove` returns the out-of-root error, makes no
`os.RemoveAll` call, and leaves the file system and the registry (its
`volumes` mapping included) as they were. -/
theorem Remove_out_of_scope {FS : Type} (env : Env FS) (r : Root) (fs : FS) (lv : LocalVolume)
    (p : Str) (hreal : lv.RealPath env fs = .ok p) (hscope : r.scopedPath p = false) :
    (r.Remove env fs (.localVol lv)).out = .error (Error.outOfRoot r.scope p) ∧
    (r.Remove env fs (.localVol lv)).fs = fs ∧
    (r.Remove env fs (.localVol lv)).root = r ∧
    (r.Remove env fs (.localVol lv)).root.volumes = r.volumes ∧
    ∀ q, Call.RemoveAll q ∉ (r.Remove env fs (.localVol lv)).calls := by
  simp [Root.Remove, hreal, hscope]

theorem Remove_out_of_scope_witness :
    dbVolume.RealPath toyEnv escapeFS = .ok "/etc".toList ∧
    dockerRoot.scopedPath "/etc".toList = false ∧
    (dockerRoot.Remove toyEnv escapeFS (.localVol dbVolume)).out =
      .error (Error.outOfRoot dockerRoot.scope "/etc".toList) ∧
    (dockerRoot.Remove toyEnv escapeFS (.localVol dbVolume)).fs = escapeFS :=
  ⟨rfl, by decide,
    (Remove_out_of_scope toyEnv dockerRoot escapeFS dbVolume "/etc".toList rfl (by decide)).1,
    (Remove_out_of_scope toyEnv dockerRoot escapeFS dbVolume "/etc".toList rfl (by decide)).2.1⟩

theorem removePath_fst {FS : Type} (env : Env FS) (fs : FS) (p : Str) :
    (removePath env fs p).1 = (env.RemoveAll fs p).1 := by
  unfold removePath
  split
  · rename_i fs1 err h
    split <;> simp [h]
  · rename_i fs1 h
    simp [h]

theorem removePath_none {FS : Type} (env : Env FS) (fs : FS) (p : Str)
    (h : (removePath env fs p).2 = none) :
    ∀ e, (env.RemoveAll fs p).2 = some e → IsNotExist e = true := by
  intro e he
  unfold removePath at h
  split at h
  · rename_i fs1 err h1
    rw [h1] at he
    simp at he
    subst he
    split at h
    · assumption
    · simp at h
  · rename_i fs1 h1
    rw [h1] at he
    simp at he

/-- C4 as stated fails: when the directory of the volume holds an entry that
cannot be removed, `Remove` returns the error of deleting the parent
directory, and the entry of the volume is no longer in the `volumes` mapping. -/
theorem Remove_error_entry_gone :
    (dockerRoot.Remove toyEnv lockedFS (.localVol dbVolume)).out =
      .error (Error.os OSError.permission) ∧
    dockerRoot.volumes dbVolume.Name = some dbVolume ∧
    (dockerRoot.Remove toyEnv lockedFS (.localVol dbVolume)).root.volumes dbVolume.Name = none ∧
    (dockerRoot.Remove toyEnv lockedFS (.localVol dbVolume)).root.volumes ≠ dockerRoot.volumes := by
  refine ⟨by decide, by decide, by decide, ?_⟩
  intro h
  have h1 := congrFun h dbVolume.Name
  revert h1
  decide

/-- C4, amended: when `Remove` returns an error, either the registry (its
`volumes` mapping included) is unchanged, or the real-path subtree has been
deleted without error, the error is the one of deleting the parent directory
of the volume, and the mapping has lost the entry of `v.Name()` and nothing
else. So the entry is removed only after the deletion of the real-path
subtree has succeeded. -/
theorem Remove_error_registry {FS : Type} (env : Env FS) (r : Root) (fs : FS) (v : Volume)
    (e : Error) (herr : (r.Remove env fs v).out = .error e) :
    (r.Remove env fs v).root = r ∨
    ∃ lv realPath, v = .localVol lv ∧ lv.RealPath env fs = .ok realPath ∧
      r.scopedPath realPath = true ∧
      (removePath env fs realPath).2 = none ∧
      removePath env (removePath env fs realPath).1 (Dir lv.Path) =
        ((r.Remove env fs v).fs, some e) ∧
      (r.Remove env fs v).root.volumes = mapDelete r.volumes lv.Name := by
  cases v with
  | adapter a => left; rfl
  | localVol lv =>
    cases hreal : lv.RealPath env fs with
    | error err => left; simp [Root.Remove, hreal]
    | ok realPath =>
      by_cases hs : r.scopedPath realPath = true
      · rcases h1 : removePath env fs realPath with ⟨fs1, _ | err1⟩
        · rcases h2 : removePath env fs1 (Dir lv.Path) with ⟨fs2, _ | err2⟩
          · simp [Root.Remove, hreal, hs, h1, h2] at herr
          · have herr2 : err2 = e := by simpa [Root.Remove, hreal, hs, h1, h2] using herr
            subst herr2
            right
            refine ⟨lv, realPath, rfl, hreal, hs, by rw [h1], ?_, ?_⟩
            · simp [Root.Remove, hreal, hs, h1, h2]
            · simp [Root.Remove, hreal, hs, h1, h2]
        · left; simp [Root.Remove, hreal, hs, h1]
      · left; simp [Root.Remove, hreal, hs]

theorem Remove_error_registry_witness :
    (dockerRoot.Remove toyEnv lockedFS (.localVol dbVolume)).out =
      .error (Error.os OSError.permission) ∧
    ((dockerRoot.Remove toyEnv lockedFS (.localVol dbVolume)).root = dockerRoot ∨
    ∃ lv realPath, Volume.localVol dbVolume = .localVol lv ∧
      lv.RealPath toyEnv lockedFS = .ok realPath ∧
      dockerRoot.scopedPath realPath = true ∧
      (removePath toyEnv lockedFS realPath).2 = none ∧
      removePath toyEnv (removePath toyEnv lockedFS realPath).1 (Dir lv.Path) =
        ((dockerRoot.Remove toyEnv lockedFS (.localVol dbVolume)).fs,
          some (Error.os OSError.permission)) ∧
      (dockerRoot.Remove toyEnv lockedFS (.localVol dbVolume)).root.volumes =
        mapDelete dockerRoot.volumes lv.Name) :=
  ⟨by decide, Remove_error_registry toyEnv dockerRoot lockedFS (.localVol dbVolume)
    (Error.os OSError.permission) (by decide)⟩

/-! ## Well-formed registries -/

theorem newBindVolume_ok : FactoryOK newBindVolume := by
  intro n p d o v o1 h
  simp only [newBindVolume, Option.some.injEq, Prod.mk.injEq] at h
  obtain ⟨rfl, _⟩ := h
  exact ⟨rfl, rfl, rfl⟩

theorem newTmpfsVolume_ok : FactoryOK newTmpfsVolume := by
  intro n p d o v o1 h
  cases o with
  | none => simp [newTmpfsVolume] at h
  | some m =>
    simp only [newTmpfsVolume, Option.some.injEq, Prod.mk.injEq] at h
    obtain ⟨rfl, _⟩ := h
    exact ⟨rfl, rfl, rfl⟩

theorem mapInsert_wellFormed (r : Root) (n : Str) (v : LocalVolume) (hwf : r.WellFormed)
    (hv : v.Name = n ∧ v.Path = dataPath n r.path ∧ v.DriverName = r.name) :
    ({ r with volumes := mapInsert r.volumes n v } : Root).WellFormed := by
  intro k w hk
  simp only [mapInsert] at hk
  split at hk
  · rename_i e
    simp only [Option.some.injEq] at hk
    subst hk; subst e
    exact hv
  · exact hwf k w hk

theorem mapDelete_wellFormed (r : Root) (n : Str) (hwf : r.WellFormed) :
    ({ r with volumes := mapDelete r.volumes n } : Root).WellFormed := by
  intro k w hk
  simp only [mapDelete] at hk
  split at hk
  · simp at hk
  · exact hwf k w hk

theorem Create_wellFormed {FS : Type} (env : Env FS) (r : Root) (fs : FS) (n : Str)
    (o : Options) (hwf : r.WellFormed) (hf : FactoryOK r.factory) :
    (r.Create env fs n o).root.WellFormed := by
  unfold Root.Create
  split
  · exact hwf
  · split
    · exact hwf
    · split
      · exact hwf
      · rename_i v o1 hfac
        simp only
        split
        · exact hwf
        · exact mapInsert_wellFormed r n v hwf (hf _ _ _ _ _ _ hfac)

theorem Remove_wellFormed {FS : Type} (env : Env FS) (r : Root) (fs : FS) (v : Volume)
    (hwf : r.WellFormed) : (r.Remove env fs v).root.WellFormed := by
  unfold Root.Remove
  split
  · exact hwf
  · split
    · exact hwf
    · split
      · exact hwf
      · split
        · exact hwf
        · simp only
          split <;> exact mapDelete_wellFormed r _ hwf

theorem scanVolumes_wellFormed (factory : volumeFactory) (hf : FactoryOK factory)
    (rootPath rname : Str) (dirs : List Str) (opts : Options)
    (vols vols1 : Str → Option LocalVolume)
    (hv : ∀ k v, vols k = some v → v.Name = k ∧ v.Path = dataPath k rootPath ∧ v.DriverName = rname)
    (h : scanVolumes factory rootPath rname dirs opts vols = some vols1) :
    ∀ k v, vols1 k = some v → v.Name = k ∧ v.Path = dataPath k rootPath ∧ v.DriverName = rname := by
  induction dirs generalizing opts vols with
  | nil =>
    simp only [scanVolumes, Option.some.injEq] at h
    subst h; exact hv
  | cons d dirs ih =>
    simp only [scanVolumes] at h
    split at h
    · simp at h
    · rename_i w o1 hfac
      refine ih o1 _ ?_ h
      intro k v hk
      simp only [mapInsert] at hk
      split at hk
      · rename_i e
        simp only [Option.some.injEq] at hk
        subst hk; subst e
        exact hf _ _ _ _ _ _ hfac
      · exact hv k v hk

theorem NewVolumeRoot_wellFormed {FS : Type} (env : Env FS) (fs : FS) (scope name base : Str)
    (uid gid : Int) (factory : volumeFactory) (hf : FactoryOK factory) (r : Root)
    (h : (NewVolumeRoot env fs scope name base uid gid factory).1 = .ok r) :
    r.WellFormed ∧ r.path = Join [scope, base] ∧ r.factory = factory := by
  unfold NewVolumeRoot at h
  simp only at h
  split at h
  · simp at h
  · split at h
    · simp at h
    · split at h
      · simp at h
      · rename_i vols hscan
        simp only [Outcome.ok.injEq] at h
        subst h
        refine ⟨?_, rfl, rfl⟩
        exact scanVolumes_wellFormed factory hf _ _ _ _ _ vols (by simp) hscan

theorem dockerRoot_wellFormed : dockerRoot.WellFormed := by
  intro k v h
  simp only [dockerRoot] at h
  split at h
  · rename_i e
    simp only [Option.some.injEq] at h
    subst h; subst e
    decide
  · simp at h

theorem engineRoot_wellFormed : engineRoot.WellFormed := by
  intro k v h
  simp [engineRoot] at h

theorem ancestors_head (k : Nat) (q : Str) : ∃ t, ancestors k q = q :: t := by
  cases k with
  | zero => exact ⟨[], rfl⟩
  | succ k => exact ⟨_, rfl⟩

theorem inTree_of_eq_or_parent (p q : Str) (h : q = p ∨ Dir q = p) : inTree p q = true := by
  obtain ⟨t, ht⟩ := ancestors_head q.length (Dir q)
  simp only [inTree, ancestors, ht, List.contains_eq_any_beq, List.any_cons, Bool.or_eq_true,
    beq_iff_eq]
  rcases h with h | h
  · left; exact h.symm
  · right; left; exact h.symm

/-- The toy file system keeps the contract of `os.RemoveAll`: when it reports
no error, the path and the entries directly in it are gone. -/
theorem toyEnv_RemoveAll_gone (fs : ToyFS) (p q : Str)
    (h : ∀ e, (toyEnv.RemoveAll fs p).2 = some e → IsNotExist e = true)
    (hq : q = p ∨ Dir q = p) : toyExists (toyEnv.RemoveAll fs p).1 q = false := by
  simp only [toyEnv] at h ⊢
  split
  · rename_i hl
    have := h OSError.permission (by simp [hl])
    exact absurd this (by decide)
  · simp [toyExists, inTree_of_eq_or_parent p q hq]

/-- C5: let `os.RemoveAll` keep its contract (when it reports no error, or
only that the path does not exist, the path and the entries directly in it
no longer exist). For a registered volume of a well-formed registry, when
`Remove` returns no error, `Get` of its name fails with `ErrNotFound`, and
neither the parent directory of its data path nor the data path itself
exists any more; that parent directory is `<root>/<name>`
(`filepath.Join(r.path, name)`). -/
theorem Remove_ok_gone {FS : Type} (env : Env FS) (pathExists : FS → Str → Bool)
    (hrm : ∀ fs p q, (∀ e, (env.RemoveAll fs p).2 = some e → IsNotExist e = true) →
      (q = p ∨ Dir q = p) → pathExists (env.RemoveAll fs p).1 q = false)
    (r : Root) (fs : FS) (lv : LocalVolume) (hwf : r.WellFormed)
    (hreg : r.volumes lv.Name = some lv)
    (hok : (r.Remove env fs (.localVol lv)).out = .ok ()) :
    (r.Remove env fs (.localVol lv)).root.Get lv.Name = .error Error.ErrNotFound ∧
    pathExists (r.Remove env fs (.localVol lv)).fs (Dir lv.Path) = false ∧
    pathExists (r.Remove env fs (.localVol lv)).fs lv.Path = false ∧
    (r.path ≠ [] ∨ lv.Name ≠ [] →
      Dir lv.Path = Join [r.path, lv.Name] ∧
      pathExists (r.Remove env fs (.localVol lv)).fs (Join [r.path, lv.Name]) = false) := by
  have hpath : lv.Path = dataPath lv.Name r.path := (hwf _ _ hreg).2.1
  cases hreal : lv.RealPath env fs with
  | error err => simp [Root.Remove, hreal] at hok
  | ok realPath =>
    by_cases hs : r.scopedPath realPath = true
    · rcases h1 : removePath env fs realPath with ⟨fs1, _ | err1⟩
      · rcases h2 : removePath env fs1 (Dir lv.Path) with ⟨fs2, _ | err2⟩
        · have hfs : (r.Remove env fs (.localVol lv)).fs = (env.RemoveAll fs1 (Dir lv.Path)).1 := by
            rw [← removePath_fst]
            simp [Root.Remove, hreal, hs, h1, h2]
          have hnone := removePath_none env fs1 (Dir lv.Path) (by rw [h2])
          have hget : (r.Remove env fs (.localVol lv)).root.Get lv.Name
              = .error Error.ErrNotFound := by
            simp [Root.Remove, hreal, hs, h1, h2, Root.Get, mapDelete]
          have hparent := hrm fs1 (Dir lv.Path) (Dir lv.Path) hnone (Or.inl rfl)
          have hdata := hrm fs1 (Dir lv.Path) lv.Path hnone (Or.inr rfl)
          rw [hfs]
          refine ⟨hget, hparent, hdata, fun hne => ?_⟩
          have hd : Dir lv.Path = Join [r.path, lv.Name] := by
            rw [hpath]; exact Dir_dataPath _ _ hne
          exact ⟨hd, hd ▸ hparent⟩
        · simp [Root.Remove, hreal, hs, h1, h2] at hok
      · simp [Root.Remove, hreal, hs, h1] at hok
    · simp [Root.Remove, hreal, hs] at hok

theorem Remove_ok_gone_witness :
    dockerRoot.volumes dbVolume.Name = some dbVolume ∧
    (dockerRoot.Remove toyEnv plainFS (.localVol dbVolume)).out = .ok () ∧
    (dockerRoot.Remove toyEnv plainFS (.localVol dbVolume)).root.Get "db".toList =
      .error Error.ErrNotFound ∧
    toyExists (dockerRoot.Remove toyEnv plainFS (.localVol dbVolume)).fs
      "/var/lib/docker/volumes/db".toList = false ∧
    toyExists (dockerRoot.Remove toyEnv plainFS (.localVol dbVolume)).fs
      "/var/lib/docker/volumes/db/_data".toList = false :=
  have h := Remove_ok_gone toyEnv toyExists toyEnv_RemoveAll_gone dockerRoot plainFS dbVolume
    dockerRoot_wellFormed (by decide) (by decide)
  ⟨by decide, by decide, h.1, h.2.1, h.2.2.1⟩

/-! ## `Create` -/

/-- C6: when `Create(n, o1)` succeeds with the volume `v`, a `Create(n, o2)`
that follows it succeeds with the same `v`, makes no call (no factory, no
`Init`, no file system call), leaves the file system and the registry (its
`volumes` mapping included) unchanged, and does the same for every other
options map in the place of `o2`. -/
theorem Create_twice {FS : Type} (env : Env FS) (r : Root) (fs : FS) (n : Str)
    (o1 o2 : Options) (v : Volume) (h1 : (r.Create env fs n o1).out = .ok v) :
    ((r.Create env fs n o1).root.Create env (r.Create env fs n o1).fs n o2).out = .ok v ∧
    ((r.Create env fs n o1).root.Create env (r.Create env fs n o1).fs n o2).calls = [] ∧
    ((r.Create env fs n o1).root.Create env (r.Create env fs n o1).fs n o2).fs =
      (r.Create env fs n o1).fs ∧
    ((r.Create env fs n o1).root.Create env (r.Create env fs n o1).fs n o2).root =
      (r.Create env fs n o1).root ∧
    ((r.Create env fs n o1).root.Create env (r.Create env fs n o1).fs n o2).root.volumes =
      (r.Create env fs n o1).root.volumes ∧
    ∀ o3, (r.Create env fs n o1).root.Create env (r.Create env fs n o1).fs n o3 =
      (r.Create env fs n o1).root.Create env (r.Create env fs n o1).fs n o2 := by
  have key : ∀ o, (r.Create env fs n o1).root.Create env (r.Create env fs n o1).fs n o =
      ⟨.ok v, (r.Create env fs n o1).root, (r.Create env fs n o1).fs, []⟩ := by
    intro o
    cases hval : r.validateName env n with
    | some err => simp [Root.Create, hval] at h1
    | none =>
      have hval1 : ∀ r1 : Root, r1.validateName env n = none := fun r1 => by
        simpa [Root.validateName] using hval
      cases hv : r.volumes n with
      | some v0 =>
        have hv0 : validVolume v0 = .ok v := by simpa [Root.Create, hval, hv] using h1
        simp [Root.Create, hval, hv, hv0]
      | none =>
        cases hfac : r.factory n r.path r.Name o1 with
        | none => simp [Root.Create, hval, hv, hfac] at h1
        | some w =>
          obtain ⟨v0, o0⟩ := w
          rcases hinit : v0.Init env fs r.rootUID r.rootGID with ⟨fs1, _ | err⟩
          · have hv0 : validVolume v0 = .ok v := by
              simpa [Root.Create, hval, hv, hfac, hinit] using h1
            have h2 : r.Create env fs n o1 =
                ⟨.ok v, { r with volumes := mapInsert r.volumes n v0 }, fs1,
                  [Call.factory n r.path r.Name o1, Call.Init v0.Path r.rootUID r.rootGID,
                   Call.MkdirAllAs v0.Path 0o755 r.rootUID r.rootGID]⟩ := by
              simp [Root.Create, hval, hv, hfac, hinit, hv0]
            rw [h2]
            simp [Root.Create, hval1, mapInsert, hv0]
          · simp [Root.Create, hval, hv, hfac, hinit] at h1
  refine ⟨by rw [key], by rw [key], by rw [key], by rw [key], by rw [key], ?_⟩
  intro o3
  rw [key o3, key o2]

theorem Create_twice_witness :
    (engineRoot.Create toyEnv engineFS "cache".toList (some [])).out =
      .ok (.localVol cacheVolume) ∧
    ((engineRoot.Create toyEnv engineFS "cache".toList (some [])).root.Create toyEnv
      (engineRoot.Create toyEnv engineFS "cache".toList (some [])).fs "cache".toList
      (some [("mode".toList, "700".toList)])).out = .ok (.localVol cacheVolume) ∧
    ((engineRoot.Create toyEnv engineFS "cache".toList (some [])).root.Create toyEnv
      (engineRoot.Create toyEnv engineFS "cache".toList (some [])).fs "cache".toList
      (some [("mode".toList, "700".toList)])).calls = [] :=
  have h := Create_twice toyEnv engineRoot engineFS "cache".toList (some [])
    (some [("mode".toList, "700".toList)]) (.localVol cacheVolume) (by decide)
  ⟨by decide, h.1, h.2.1⟩

theorem Create_ok_entry {FS : Type} (env : Env FS) (r : Root) (fs : FS) (n : Str)
    (opts : Options) (v : Volume) (hwf : r.WellFormed) (hf : FactoryOK r.factory)
    (hok : (r.Create env fs n opts).out = .ok v) :
    env.volumeNameRegex n = true ∧
    ∃ lv, v = .localVol lv ∧ (r.Create env fs n opts).root.volumes n = some lv ∧
      lv.Name = n ∧ lv.Path = dataPath n r.path ∧ lv.DriverName = r.name := by
  cases hval : r.validateName env n with
  | some err => simp [Root.Create, hval] at hok
  | none =>
    have hre : env.volumeNameRegex n = true := by
      simpa [Root.validateName] using hval
    refine ⟨hre, ?_⟩
    cases hv : r.volumes n with
    | some v0 =>
      have hv0 : Volume.localVol v0 = v := by
        simpa [Root.Create, hval, hv, validVolume] using hok
      refine ⟨v0, hv0.symm, ?_, hwf n v0 hv⟩
      simp [Root.Create, hval, hv]
    | none =>
      cases hfac : r.factory n r.path r.Name opts with
      | none => simp [Root.Create, hval, hv, hfac] at hok
      | some w =>
        obtain ⟨v0, o0⟩ := w
        rcases hinit : v0.Init env fs r.rootUID r.rootGID with ⟨fs1, _ | err⟩
        · have hv0 : Volume.localVol v0 = v := by
            simpa [Root.Create, hval, hv, hfac, hinit, validVolume] using hok
          refine ⟨v0, hv0.symm, ?_, hf _ _ _ _ _ _ hfac⟩
          simp [Root.Create, hval, hv, hfac, hinit, mapInsert]
        · simp [Root.Create, hval, hv, hfac, hinit] at hok

/-- C7: in a well-formed registry whose factory is one of the repository,
when `Create(n, opts)` succeeds with `v`, the name matched the pattern,
`Get(n)` returns `v`, `v.Name()` is `n` and `v.Path()` is
`filepath.Join(root, n, "_data")`. When `n` is a plain directory name and the
managed root is a cleaned path other than `/` and `.`, that path is the root
followed by `/n/_data`, a strict descendant of the root that `scopedPath`
accepts. -/
theorem Create_then_Get {FS : Type} (env : Env FS) (r : Root) (fs : FS) (n : Str)
    (opts : Options) (v : Volume) (hwf : r.WellFormed) (hf : FactoryOK r.factory)
    (hok : (r.Create env fs n opts).out = .ok v) :
    env.volumeNameRegex n = true ∧
    (r.Create env fs n opts).root.Get n = .ok v ∧
    v.Name = n ∧
    ∃ lv, v = .localVol lv ∧ lv.Path = Join [r.path, n, VolumeDataPathName] ∧
      (isLeafName n = true → Clean r.path = r.path → r.path ≠ [Separator] → r.path ≠ ['.'] →
        lv.Path = r.path ++ Separator :: (n ++ Separator :: VolumeDataPathName) ∧
        strictlyUnder r.path lv.Path = true ∧
        (r.Create env fs n opts).root.scopedPath lv.Path = true) := by
  obtain ⟨hre, lv, rfl, hreg, hname, hpath, _⟩ := Create_ok_entry env r fs n opts v hwf hf hok
  refine ⟨hre, ?_, hname, lv, rfl, hpath, ?_⟩
  · simp [Root.Get, hreg, validVolume]
  · intro hleaf hclean hr1 hr2
    have hp : lv.Path = r.path ++ Separator :: (n ++ Separator :: VolumeDataPathName) := by
      rw [hpath]; exact dataPath_eq_append n r.path hclean hr1 hr2 hleaf
    have hrp : (r.Create env fs n opts).root.path = r.path := by
      unfold Root.Create
      split
      · rfl
      · split
        · rfl
        · split
          · rfl
          · simp only
            split <;> rfl
    refine ⟨hp, ?_, ?_⟩
    · rw [strictlyUnder_iff]
      exact ⟨n ++ Separator :: VolumeDataPathName, by simp, hp⟩
    · simp only [Root.scopedPath, hrp]
      rw [hp, HasPrefix_append]
      simp

theorem Create_then_Get_witness :
    (engineRoot.Create toyEnv engineFS "cache".toList (some [])).out =
      .ok (.localVol cacheVolume) ∧
    (engineRoot.Create toyEnv engineFS "cache".toList (some [])).root.Get "cache".toList =
      .ok (.localVol cacheVolume) ∧
    (Volume.localVol cacheVolume).Name = "cache".toList ∧
    ∃ lv, Volume.localVol cacheVolume = .localVol lv ∧
      lv.Path = Join ["/var/lib/engine/volumes".toList, "cache".toList, "_data".toList] ∧
      lv.Path = "/var/lib/engine/volumes/cache/_data".toList ∧
      strictlyUnder "/var/lib/engine/volumes".toList lv.Path = true :=
  have h := Create_then_Get toyEnv engineRoot engineFS "cache".toList (some [])
    (.localVol cacheVolume) engineRoot_wellFormed newBindVolume_ok (by decide)
  ⟨by decide, h.2.1, h.2.2.1,
    h.2.2.2.elim fun lv hlv =>
      ⟨lv, hlv.1, hlv.2.1,
        (hlv.2.2 (by decide) (by decide) (by decide) (by decide)).1,
        (hlv.2.2 (by decide) (by decide) (by decide) (by decide)).2.1⟩⟩

/-! ## The tmpfs variant -/

theorem lookup_mapSet_self (l : List (Str × Str)) (k v : Str) :
    (mapSet l k v).lookup k = some v := by
  induction l with
  | nil => simp [mapSet, List.lookup]
  | cons p l ih =>
    obtain ⟨a, b⟩ := p
    by_cases ha : a = k
    · subst ha; simp [mapSet, List.lookup]
    · have : (k == a) = false := by simpa using fun e : k = a => ha e.symm
      simp [mapSet, ha, List.lookup, this, ih]

theorem lookup_mapSet_ne (l : List (Str × Str)) (k k1 v : Str) (h : k1 ≠ k) :
    (mapSet l k v).lookup k1 = l.lookup k1 := by
  have hk : (k1 == k) = false := by simpa using h
  induction l with
  | nil => simp [mapSet, List.lookup, hk]
  | cons p l ih =>
    obtain ⟨a, b⟩ := p
    by_cases ha : a = k
    · subst ha; simp [mapSet, List.lookup, hk]
    · by_cases hk1 : k1 = a
      · subst hk1; simp [mapSet, ha, List.lookup]
      · have : (k1 == a) = false := by simpa using hk1
        simp [mapSet, ha, List.lookup, this, ih]

/-- C8 (the code departs from the claim): `newTmpfsVolume` fills a missing
`size` with `defaultMode`, so for every non-nil options map the mount data
is `mode=<m>,size=<s>` with `m` the supplied mode or else `755` and `s` the
supplied size or else `755`; with no options supplied the data is
`mode=755,size=755`, not `mode=755,size=65536k`. -/
theorem tmpfs_default_size (name rootPath driverName : Str) :
    (∀ m : List (Str × Str), ∃ v o mo,
      newTmpfsVolume name rootPath driverName (some m) = some (.tmpfs v, o) ∧
      v.Options = .ok mo ∧
      mo.Data = "mode=".toList ++ (m.lookup modeKey).getD "755".toList ++
        ",size=".toList ++ (m.lookup sizeKey).getD "755".toList) ∧
    (∃ v o mo, newTmpfsVolume name rootPath driverName (some []) = some (.tmpfs v, o) ∧
      v.Options = .ok mo ∧ mo.Data = "mode=755,size=755".toList ∧
      mo.Data ≠ "mode=755,size=65536k".toList) := by
  have hne : modeKey ≠ sizeKey := by decide
  constructor
  · intro m
    refine ⟨_, _, _, rfl, rfl, ?_⟩
    have hd : defaultMode = "755".toList := rfl
    simp only [Options.index, Options.get?]
    cases hm : m.lookup modeKey with
    | none =>
      cases hs : m.lookup sizeKey with
      | none =>
        simp [lookup_mapSet_ne _ _ _ _ hne.symm, hs, lookup_mapSet_self,
          lookup_mapSet_ne _ _ _ _ hne, hd]
      | some sz =>
        simp [lookup_mapSet_ne _ _ _ _ hne.symm, hs, lookup_mapSet_self, hd]
    | some md =>
      cases hs : m.lookup sizeKey with
      | none => simp [hm, hs, lookup_mapSet_self, lookup_mapSet_ne _ _ _ _ hne, hd]
      | some sz => simp [hm, hs]
  · exact ⟨_, _, _, rfl, rfl, rfl,
      (by decide : ("mode=755,size=755".toList : Str) ≠ "mode=755,size=65536k".toList)⟩

/-! ## The driver adapter -/

/-- C9 as stated fails for the empty path: when the proxy's `Mount` returns
the empty string without error, `Options()` succeeds with an empty `Source`,
and the `Path()` call that follows queries the proxy's `Path` and returns
its answer. -/
theorem adapter_Path_empty_mount :
    (pluginVolume.Options (constProxy [] "/mnt/other".toList) ()).value =
      .ok { Source := [], Device := "bind".toList } ∧
    ((pluginVolume.Options (constProxy [] "/mnt/other".toList) ()).vol.Path
      (constProxy [] "/mnt/other".toList) ()).value = "/mnt/other".toList ∧
    ((pluginVolume.Options (constProxy [] "/mnt/other".toList) ()).vol.Path
      (constProxy [] "/mnt/other".toList) ()).calls = [ProxyCall.Path "data".toList] := by
  refine ⟨rfl, by decide, by decide⟩

/-- C9, amended: for every path `p` that the proxy's `Mount` returns without
error, `Options()` returns a mount description with `Source` `p` and
`Device` `bind`, and keeps `p` in `eMount`; when `p` is not empty, a `Path()`
call that follows (in whatever state the proxy is) returns `p` without any
call to the proxy. -/
theorem adapter_Options_then_Path {σ : Type} (proxy : volumeDriverProxy σ) (s s1 : σ)
    (a : volumeAdapter) (p : Str) (hmount : proxy.Mount s a.name = (s1, p, none)) :
    (a.Options proxy s).value = .ok { Source := p, Device := "bind".toList } ∧
    (a.Options proxy s).vol.eMount = p ∧
    (a.Options proxy s).proxy = s1 ∧
    (p ≠ [] → ∀ s2,
      ((a.Options proxy s).vol.Path proxy s2).value = p ∧
      ((a.Options proxy s).vol.Path proxy s2).calls = [] ∧
      ((a.Options proxy s).vol.Path proxy s2).proxy = s2 ∧
      ((a.Options proxy s).vol.Path proxy s2).vol = (a.Options proxy s).vol) := by
  have hv : (a.Options proxy s).vol = { a with eMount := p } := by
    simp [volumeAdapter.Options, hmount]
  refine ⟨by simp [volumeAdapter.Options, hmount], by rw [hv],
    by simp [volumeAdapter.Options, hmount], ?_⟩
  intro hp s2
  have hl : 0 < p.length := List.length_pos.2 hp
  rw [hv]
  simp [volumeAdapter.Path, hl]

theorem adapter_Options_then_Path_witness :
    (constProxy "/mnt/data".toList "/mnt/other".toList).Mount () pluginVolume.name =
      ((), "/mnt/data".toList, none) ∧
    (pluginVolume.Options (constProxy "/mnt/data".toList "/mnt/other".toList) ()).value =
      .ok { Source := "/mnt/data".toList, Device := "bind".toList } ∧
    ((pluginVolume.Options (constProxy "/mnt/data".toList "/mnt/other".toList) ()).vol.Path
      (constProxy "/mnt/data".toList "/mnt/other".toList) ()).value = "/mnt/data".toList ∧
    ((pluginVolume.Options (constProxy "/mnt/data".toList "/mnt/other".toList) ()).vol.Path
      (constProxy "/mnt/data".toList "/mnt/other".toList) ()).calls = [] :=
  have h := adapter_Options_then_Path (constProxy "/mnt/data".toList "/mnt/other".toList) () ()
    pluginVolume "/mnt/data".toList rfl
  ⟨rfl, h.1, (h.2.2.2 (by decide) ()).1, (h.2.2.2 (by decide) ()).2.1⟩

theorem stepAdapter_eMount {σ : Type} (proxy : volumeDriverProxy σ) (st : AdapterRun σ)
    (op : AdapterOp) (h : st.vol.eMount = (st.mounts.getLast?).getD []) :
    (stepAdapter proxy st op).vol.eMount = ((stepAdapter proxy st op).mounts.getLast?).getD [] ∧
    (stepAdapter proxy st op).vol.name = st.vol.name ∧
    (stepAdapter proxy st op).vol.driverName = st.vol.driverName := by
  cases op with
  | Path =>
    have hv : (st.vol.Path proxy st.proxy).vol = st.vol := by
      simp only [volumeAdapter.Path]
      split <;> rfl
    simp [stepAdapter, hv, h]
  | Options =>
    simp only [stepAdapter, volumeAdapter.Options]
    rcases hm : proxy.Mount st.proxy st.vol.name with ⟨s1, m, _ | err⟩ <;> simp
  | Unmount => exact ⟨h, rfl, rfl⟩

theorem foldl_stepAdapter_eMount {σ : Type} (proxy : volumeDriverProxy σ)
    (ops : List AdapterOp) (st : AdapterRun σ)
    (h : st.vol.eMount = (st.mounts.getLast?).getD []) :
    (ops.foldl (stepAdapter proxy) st).vol.eMount =
      ((ops.foldl (stepAdapter proxy) st).mounts.getLast?).getD [] ∧
    (ops.foldl (stepAdapter proxy) st).vol.name = st.vol.name ∧
    (ops.foldl (stepAdapter proxy) st).vol.driverName = st.vol.driverName := by
  induction ops generalizing st with
  | nil => exact ⟨h, rfl, rfl⟩
  | cons op ops ih =>
    have h1 := stepAdapter_eMount proxy st op h
    have h2 := ih (stepAdapter proxy st op) h1.1
    exact ⟨h2.1, h2.2.1.trans h1.2.1, h2.2.2.trans h1.2.2⟩

/-- C10 as stated fails: after a successful `Options()` and the `Unmount()`
that matches it, `eMount` still holds the mount path. -/
theorem adapter_eMount_after_Unmount :
    (runAdapter (constProxy "/mnt/data".toList []) () "data".toList "plugin".toList
      [AdapterOp.Options, AdapterOp.Unmount]).vol.eMount = "/mnt/data".toList ∧
    (runAdapter (constProxy "/mnt/data".toList []) () "data".toList "plugin".toList
      [AdapterOp.Options, AdapterOp.Unmount]).vol.eMount ≠ [] := by
  refine ⟨by decide, by decide⟩

/-- C10, amended: `Path()` and `Unmount()` leave `eMount` as it is and
`Options()` sets it to the string the proxy's `Mount` returns, with or
without an error. So in every state reachable from creation by `Path()`,
`Options()` and `Unmount()` calls, whatever the proxy answers, `eMount` is
the string returned by the latest `Mount` call, and is empty when `Options()`
has not been called; the name and the driver name never change. -/
theorem adapter_eMount_latest_mount {σ : Type} (proxy : volumeDriverProxy σ) (s : σ)
    (name driverName : Str) (ops : List AdapterOp) :
    (runAdapter proxy s name driverName ops).vol.eMount =
      ((runAdapter proxy s name driverName ops).mounts.getLast?).getD [] ∧
    (AdapterOp.Options ∉ ops → (runAdapter proxy s name driverName ops).vol.eMount = []) ∧
    (runAdapter proxy s name driverName ops).vol.name = name ∧
    (runAdapter proxy s name driverName ops).vol.driverName = driverName ∧
    (∀ (a : volumeAdapter) (t : σ),
      (a.Path proxy t).vol = a ∧ (a.Unmount proxy t).vol = a ∧
      (a.Options proxy t).vol = { a with eMount := (proxy.Mount t a.name).2.1 }) := by
  have h := foldl_stepAdapter_eMount proxy ops
    { proxy := s, vol := { name := name, driverName := driverName }, mounts := [] } rfl
  refine ⟨h.1, ?_, h.2.1, h.2.2, ?_⟩
  · intro hno
    have hm : ∀ (l : List AdapterOp) (st : AdapterRun σ), AdapterOp.Options ∉ l →
        (l.foldl (stepAdapter proxy) st).mounts = st.mounts := by
      intro l
      induction l with
      | nil => intro st _; rfl
      | cons op l ih =>
        intro st hl
        have hop : op ≠ AdapterOp.Options := fun e => hl (by simp [e])
        have hl1 : AdapterOp.Options ∉ l := fun e => hl (List.mem_cons_of_mem _ e)
        rw [List.foldl_cons, ih _ hl1]
        cases op with
        | Path => rfl
        | Options => exact absurd rfl hop
        | Unmount => rfl
    have h1 := h.1
    rw [hm ops _ hno] at h1
    exact h1
  · intro a t
    refine ⟨?_, rfl, ?_⟩
    · simp only [volumeAdapter.Path]
      split <;> rfl
    · simp only [volumeAdapter.Options]
      rcases hm : proxy.Mount t a.name with ⟨s1, m, _ | err⟩ <;> rfl

/-! ## `Create` and `Remove`: errors and frame -/

/-- C14: for a name that does not match the pattern, `Create` returns the
invalid-name error, makes no call (no factory, no `Init`, no file system
call) and leaves the registry (its `volumes` mapping included) and the file
system as they were. -/
theorem Create_invalid_name {FS : Type} (env : Env FS) (r : Root) (fs : FS) (n : Str)
    (opts : Options) (h : env.volumeNameRegex n = false) :
    (r.Create env fs n opts).out = .error (Error.ErrorCodeVolumeName n) ∧
    (r.Create env fs n opts).calls = [] ∧
    (r.Create env fs n opts).root = r ∧
    (r.Create env fs n opts).root.volumes = r.volumes ∧
    (r.Create env fs n opts).fs = fs := by
  simp [Root.Create, Root.validateName, h]

theorem Create_invalid_name_witness :
    toyEnv.volumeNameRegex "a/b".toList = false ∧
    (engineRoot.Create toyEnv engineFS "a/b".toList (some [])).out =
      .error (Error.ErrorCodeVolumeName "a/b".toList) ∧
    (engineRoot.Create toyEnv engineFS "a/b".toList (some [])).calls = [] ∧
    (engineRoot.Create toyEnv engineFS "a/b".toList (some [])).fs = engineFS :=
  have h := Create_invalid_name toyEnv engineRoot engineFS "a/b".toList (some []) (by decide)
  ⟨by decide, h.1, h.2.1, h.2.2.2.2⟩

/-- C15: `Create(n, opts)` leaves every entry of the `volumes` mapping whose
key differs from `n` as it was, and `Remove(v)` every entry whose key differs
from `v.Name()`, whatever the outcome of the call; the other fields of the
registry do not change either. -/
theorem Create_Remove_frame {FS : Type} (env : Env FS) (r : Root) (fs : FS) :
    (∀ (n : Str) (opts : Options) (k : Str), k ≠ n →
      (r.Create env fs n opts).root.volumes k = r.volumes k) ∧
    (∀ (v : Volume) (k : Str), k ≠ v.Name →
      (r.Remove env fs v).root.volumes k = r.volumes k) ∧
    (∀ (n : Str) (opts : Options), (r.Create env fs n opts).root.path = r.path ∧
      (r.Create env fs n opts).root.name = r.name) ∧
    (∀ v : Volume, (r.Remove env fs v).root.path = r.path ∧
      (r.Remove env fs v).root.name = r.name) := by
  refine ⟨?_, ?_, ?_, ?_⟩
  · intro n opts k hk
    unfold Root.Create
    split
    · rfl
    · split
      · rfl
      · split
        · rfl
        · simp only
          split
          · rfl
          · simp [mapInsert, hk]
  · intro v k hk
    unfold Root.Remove
    split
    · rfl
    · rename_i lv
      have hk1 : k ≠ lv.Name := hk
      split
      · rfl
      · split
        · rfl
        · split
          · rfl
          · simp only
            split <;> simp [mapDelete, hk1]
  · intro n opts
    unfold Root.Create
    split
    · exact ⟨rfl, rfl⟩
    · split
      · exact ⟨rfl, rfl⟩
      · split
        · exact ⟨rfl, rfl⟩
        · simp only
          split <;> exact ⟨rfl, rfl⟩
  · intro v
    unfold Root.Remove
    split
    · exact ⟨rfl, rfl⟩
    · split
      · exact ⟨rfl, rfl⟩
      · split
        · exact ⟨rfl, rfl⟩
        · split
          · exact ⟨rfl, rfl⟩
          · simp only
            split <;> exact ⟨rfl, rfl⟩

theorem Create_Remove_frame_witness :
    "db".toList ≠ "cache".toList ∧
    (dockerRoot.Create toyEnv plainFS "cache".toList (some [])).root.volumes "db".toList =
      dockerRoot.volumes "db".toList ∧
    (dockerRoot.Remove toyEnv plainFS (.localVol cacheVolume)).root.volumes "db".toList =
      dockerRoot.volumes "db".toList :=
  have h := Create_Remove_frame toyEnv dockerRoot plainFS
  ⟨by decide, h.1 "cache".toList (some []) "db".toList (by decide),
    h.2.1 (.localVol cacheVolume) "db".toList (by decide)⟩

/-- C16: for a valid name that is not registered, when the factory returns a
volume whose `Init` fails, `Create` returns the error of `Init` and no
volume, the registry (its `volumes` mapping included) is unchanged, and
`Get` of the name fails with `ErrNotFound`. -/
theorem Create_Init_fails {FS : Type} (env : Env FS) (r : Root) (fs fs1 : FS) (n : Str)
    (opts o : Options) (v : LocalVolume) (err : Error)
    (hname : env.volumeNameRegex n = true) (hnew : r.volumes n = none)
    (hfac : r.factory n r.path r.Name opts = some (v, o))
    (hinit : v.Init env fs r.rootUID r.rootGID = (fs1, some err)) :
    (r.Create env fs n opts).out = .error err ∧
    (r.Create env fs n opts).root = r ∧
    (r.Create env fs n opts).root.volumes = r.volumes ∧
    (r.Create env fs n opts).root.Get n = .error Error.ErrNotFound ∧
    (r.Create env fs n opts).fs = fs1 := by
  have hval : r.validateName env n = none := by simp [Root.validateName, hname]
  simp [Root.Create, hval, hnew, hfac, hinit, Root.Get]

theorem Create_Init_fails_witness :
    readOnlyEnv.volumeNameRegex "cache".toList = true ∧
    engineRoot.volumes "cache".toList = none ∧
    (engineRoot.Create readOnlyEnv engineFS "cache".toList (some [])).out =
      .error (Error.os OSError.permission) ∧
    (engineRoot.Create readOnlyEnv engineFS "cache".toList (some [])).root.Get "cache".toList =
      .error Error.ErrNotFound :=
  have h := Create_Init_fails readOnlyEnv engineRoot engineFS engineFS "cache".toList (some [])
    (some []) cacheVolume (Error.os OSError.permission) (by decide) (by decide) rfl rfl
  ⟨by decide, by decide, h.1, h.2.2.2.1⟩

/-- C17 (the code departs from the claim): with a nil options map
`newTmpfsVolume` panics when it writes the default mode into the map, and so
does `Create(name, nil)` of a registry of tmpfs volumes for a valid name that
is not registered; with a map that is not nil it returns a volume. -/
theorem tmpfs_nil_options (name rootPath driverName : Str) :
    newTmpfsVolume name rootPath driverName none = none ∧
    (∀ m : List (Str × Str), ∃ v o, newTmpfsVolume name rootPath driverName (some m) = some (v, o)) ∧
    (tmpfsRoot.Create toyEnv engineFS "cache".toList none).out = Outcome.panic ∧
    (tmpfsRoot.Create toyEnv engineFS "cache".toList none).calls =
      [Call.factory "cache".toList "/var/lib/engine/tmpfs".toList "tmpfs".toList none] := by
  refine ⟨rfl, fun m => ⟨_, _, rfl⟩, by decide, by decide⟩

/-- C13 (the code departs from the claim): `Remove` tells the volumes of
another driver only by the type assertion. An adapter volume fails it, so
`Remove` returns an error and changes nothing. A local volume of another
driver passes it: for the tmpfs volume `db` of the driver `tmpfs`, whose data
directory is a symbolic link into the managed root of the bind registry,
`Remove` returns no error, deletes the data of the bind volume `db` and
takes its entry out of the `volumes` mapping. -/
theorem Remove_other_driver :
    (∀ (FS : Type) (env : Env FS) (r : Root) (fs : FS) (a : volumeAdapter),
      (r.Remove env fs (.adapter a)).out = .error Error.unknownVolumeType ∧
      (r.Remove env fs (.adapter a)).root = r ∧
      (r.Remove env fs (.adapter a)).fs = fs ∧
      (r.Remove env fs (.adapter a)).calls = []) ∧
    (Volume.localVol tmpfsDbVolume).DriverName ≠ dockerRoot.Name ∧
    dockerRoot.volumes "db".toList = some dbVolume ∧
    (dockerRoot.Remove toyEnv crossFS (.localVol tmpfsDbVolume)).out = .ok () ∧
    (dockerRoot.Remove toyEnv crossFS (.localVol tmpfsDbVolume)).root.volumes "db".toList = none ∧
    (dockerRoot.Remove toyEnv crossFS (.localVol tmpfsDbVolume)).calls =
      [Call.EvalSymlinks "/var/lib/docker/tmpfs/db/_data".toList,
       Call.RemoveAll "/var/lib/docker/volumes/db/_data".toList,
       Call.RemoveAll "/var/lib/docker/tmpfs/db".toList] ∧
    toyExists crossFS "/var/lib/docker/volumes/db/_data".toList = true ∧
    toyExists (dockerRoot.Remove toyEnv crossFS (.localVol tmpfsDbVolume)).fs
      "/var/lib/docker/volumes/db/_data".toList = false := by
  refine ⟨fun FS env r fs a => ⟨rfl, rfl, rfl, rfl⟩, by decide, by decide, by decide, by decide,
    by decide, by decide, by decide⟩

/-! ## `Remove` once more -/

/-- A plain name joined onto a cleaned root other than `/` and `.`. -/
theorem Join_root_leaf (name rootPath : Str) (hclean : Clean rootPath = rootPath)
    (h1 : rootPath ≠ [Separator]) (h2 : rootPath ≠ ['.']) (hn : isLeafName name = true) :
    Join [rootPath, name] = rootPath ++ Separator :: name := by
  have hc := cleanElems_splitPath_clean (isRooted rootPath) rootPath
  have hr := Clean_eq_renderPath rootPath
  rw [hclean] at hr
  have hcs : cleanElems (isRooted rootPath) (splitPath rootPath) ≠ [] := by
    intro h0
    rw [h0] at hr
    cases hrt : isRooted rootPath with
    | true => rw [hrt] at hr; exact h1 (by simpa [renderPath, joinPath] using hr)
    | false => rw [hrt] at hr; exact h2 (by simpa [renderPath] using hr)
  have hp : rootPath ≠ [] := by rw [← hclean]; exact Clean_ne_nil _
  rw [Join_pair _ _ hp]
  have hj : name = joinPath [name] := rfl
  nth_rewrite 1 [hr]
  nth_rewrite 1 [hj]
  rw [Clean_renderPath_append _ _ _ (hc.snoc name hn) (by simp),
    renderPath_append _ _ _ hcs (by simp), ← hr]
  rfl

theorem mapDelete_mapDelete (m : Str → Option LocalVolume) (n : Str) :
    mapDelete (mapDelete m n) n = mapDelete m n := by
  funext k
  simp only [mapDelete]
  split <;> rfl

theorem toyPresent_self (fs : ToyFS) (p : Str) (h : toyPresent fs p = false) :
    fs.dirs.contains p = false ∧ fs.links.lookup p = none ∧
    fs.locked.any (inTree p) = false ∧
    (∀ q ∈ fs.dirs, inTree p q = false) ∧ (∀ l ∈ fs.links, inTree p l.1 = false) := by
  simp only [toyPresent, Bool.or_eq_false_iff, List.any_eq_false] at h
  obtain ⟨⟨hd, hl⟩, hk⟩ := h
  have hself : inTree p p = true := inTree_of_eq_or_parent p p (Or.inl rfl)
  refine ⟨?_, ?_, ?_, fun q hq => by simpa using hd q hq, fun l hl1 => by simpa using hl l hl1⟩
  · cases hc : fs.dirs.contains p with
    | false => rfl
    | true =>
      have hm : p ∈ fs.dirs := by simpa using hc
      exact absurd hself (hd p hm)
  · cases hlk : fs.links.lookup p with
    | none => rfl
    | some t =>
      have hm : (p, t) ∈ fs.links := by
        have : ∀ (l : List (Str × Str)), l.lookup p = some t → (p, t) ∈ l := by
          intro l
          induction l with
          | nil => simp
          | cons x l ih =>
            obtain ⟨a, b⟩ := x
            by_cases ha : p = a
            · subst ha
              simp only [List.lookup, beq_self_eq_true, Option.some.injEq]
              intro h1
              simp [h1]
            · have hb : (p == a) = false := by simpa using ha
              simp only [List.lookup, hb]
              intro h1
              exact List.mem_cons_of_mem _ (ih h1)
        exact this _ hlk
      exact absurd hself (hl (p, t) hm)
  · simpa [List.any_eq_false] using hk

theorem toyEnv_EvalSymlinks_absent (fs : ToyFS) (p : Str) (h : toyPresent fs p = false) :
    ∃ e, toyEnv.EvalSymlinks fs p = .error e ∧ IsNotExist e = true := by
  obtain ⟨h1, h2, _⟩ := toyPresent_self fs p h
  exact ⟨OSError.notExist, by simp only [toyEnv, h1, h2]; rfl, rfl⟩

theorem toyEnv_RemoveAll_absent (fs : ToyFS) (p : Str) (h : toyPresent fs p = false) :
    toyEnv.RemoveAll fs p = (fs, none) := by
  obtain ⟨_, _, h3, h4, h5⟩ := toyPresent_self fs p h
  have hd : fs.dirs.filter (fun q => !inTree p q) = fs.dirs :=
    List.filter_eq_self.2 (fun q hq => by simp [h4 q hq])
  have hl : fs.links.filter (fun l => !inTree p l.1) = fs.links :=
    List.filter_eq_self.2 (fun l hl1 => by simp [h5 l hl1])
  simp only [toyEnv, h3, Bool.false_eq_true, if_false, hd, hl]

/-! ## Restart -/

theorem elemsOf_clean (p : Str) : IsCleanElems (isRooted p) (elemsOf p) :=
  cleanElems_splitPath_clean (isRooted p) p

theorem elemsOf_renderPath (rooted : Bool) (cs : List Str) (h : IsCleanElems rooted cs) :
    elemsOf (renderPath rooted cs) = cs := by
  unfold elemsOf cleanElems
  rw [isRooted_renderPath rooted cs h, foldl_splitPath_renderPath rooted cs h]
  simp

theorem eq_renderPath_of_clean (p : Str) (h : Clean p = p) :
    p = renderPath (isRooted p) (elemsOf p) := by
  have := Clean_eq_renderPath p
  rw [h] at this
  exact this

theorem Dir_of_clean (p : Str) (h : Clean p = p) :
    Clean (Dir p) = Dir p ∧ isRooted (Dir p) = isRooted p ∧
      elemsOf (Dir p) = (elemsOf p).dropLast := by
  have hc := elemsOf_clean p
  have hd : Dir p = renderPath (isRooted p) (elemsOf p).dropLast := by
    nth_rewrite 1 [eq_renderPath_of_clean p h]
    exact Dir_renderPath _ _ hc
  rw [hd]
  exact ⟨Clean_renderPath _ _ hc.dropLast, isRooted_renderPath _ _ hc.dropLast,
    elemsOf_renderPath _ _ hc.dropLast⟩

theorem GoodRoot.elems_ne_nil {p : Str} (h : GoodRoot p) : elemsOf p ≠ [] := by
  intro h0
  have hr := eq_renderPath_of_clean p h.1
  rw [h0] at hr
  cases hrt : isRooted p with
  | true => rw [hrt] at hr; exact h.2.1 (by simpa [renderPath, joinPath] using hr)
  | false => rw [hrt] at hr; exact h.2.2 (by simpa [renderPath] using hr)

theorem GoodRoot.path_ne_nil {p : Str} (h : GoodRoot p) : p ≠ [] := by
  rw [← h.1]; exact Clean_ne_nil _

/-- A plain name appended to a good root: again a good root, one element
deeper, whose parent is the root. -/
theorem GoodRoot.child {p : Str} (h : GoodRoot p) (k : Str) (hk : isLeafName k = true) :
    GoodRoot (p ++ Separator :: k) ∧
    elemsOf (p ++ Separator :: k) = elemsOf p ++ [k] ∧
    Dir (p ++ Separator :: k) = p := by
  have hc := (elemsOf_clean p).snoc k hk
  have he : p ++ Separator :: k = renderPath (isRooted p) (elemsOf p ++ [k]) := by
    rw [renderPath_append _ _ _ h.elems_ne_nil (by simp), ← eq_renderPath_of_clean p h.1]
    rfl
  have hp := h.path_ne_nil
  refine ⟨⟨?_, ?_, ?_⟩, ?_, ?_⟩
  · rw [he]; exact Clean_renderPath _ _ hc
  · intro h1
    have := congrArg List.length h1
    simp at this
    exact hp (List.length_eq_zero.1 (by omega))
  · intro h1
    have := congrArg List.length h1
    simp at this
    exact hp (List.length_eq_zero.1 (by omega))
  · rw [he]; exact elemsOf_renderPath _ _ hc
  · rw [he, Dir_renderPath _ _ hc, List.dropLast_concat]
    exact (eq_renderPath_of_clean p h.1).symm

theorem dataPath_of_GoodRoot {p : Str} (h : GoodRoot p) (k : Str) (hk : isLeafName k = true) :
    dataPath k p = (p ++ Separator :: k) ++ Separator :: VolumeDataPathName ∧
    Dir (dataPath k p) = p ++ Separator :: k ∧
    Clean (dataPath k p) = dataPath k p ∧
    elemsOf (dataPath k p) = elemsOf p ++ [k, VolumeDataPathName] := by
  have h1 := dataPath_eq_append k p h.1 h.2.1 h.2.2 hk
  have h2 : dataPath k p = (p ++ Separator :: k) ++ Separator :: VolumeDataPathName := by
    rw [h1]; simp
  have h3 := (h.child k hk).1.child VolumeDataPathName (by decide)
  rw [← h2] at h3
  refine ⟨h2, h3.2.2, h3.1.1, ?_⟩
  rw [h3.2.1, (h.child k hk).2.1]
  simp

/-- Every path in the list of ancestors of a cleaned path is cleaned, and is
the path itself or has fewer elements. -/
theorem ancestors_mem (k : Nat) : ∀ (p q : Str), Clean p = p → q ∈ ancestors k p →
    Clean q = q ∧ (q = p ∨ (elemsOf q).length < (elemsOf p).length) := by
  induction k with
  | zero =>
    intro p q hp hq
    simp only [ancestors, List.mem_singleton] at hq
    subst hq
    exact ⟨hp, Or.inl rfl⟩
  | succ k ih =>
    intro p q hp hq
    simp only [ancestors, List.mem_cons] at hq
    rcases hq with rfl | hq
    · exact ⟨hp, Or.inl rfl⟩
    · obtain ⟨hd1, _, hd3⟩ := Dir_of_clean p hp
      obtain ⟨hq1, hq2⟩ := ih (Dir p) q hd1 hq
      refine ⟨hq1, ?_⟩
      have hlen : (elemsOf (Dir p)).length = (elemsOf p).length - 1 := by
        rw [hd3]; simp
      by_cases h0 : elemsOf p = []
      · -- the path is `/` or `.`, its own parent
        have hself : Dir p = p := by
          have e1 := eq_renderPath_of_clean (Dir p) hd1
          have e2 := eq_renderPath_of_clean p hp
          rw [hd3, h0] at e1
          rw [h0] at e2
          rw [(Dir_of_clean p hp).2.1] at e1
          simp only [List.dropLast_nil] at e1
          rw [e1, ← e2]
        rcases hq2 with h | h
        · exact Or.inl (h.trans hself)
        · rw [hself] at h; exact Or.inr h
      · have hpos : 0 < (elemsOf p).length := List.length_pos.2 h0
        rcases hq2 with h | h
        · right; rw [h, hlen]; omega
        · right; omega

theorem not_inTree_of_length {p q : Str} (hq : Clean q = q) (hne : p ≠ q)
    (hlen : (elemsOf q).length ≤ (elemsOf p).length) : inTree p q = false := by
  apply Bool.eq_false_iff.2
  intro h
  have hm : p ∈ ancestors (q.length + 1) q := by simpa [inTree] using h
  rcases (ancestors_mem _ q p hq hm).2 with h1 | h1
  · exact hne h1
  · omega

theorem ancestors_two (k : Nat) (p : Str) :
    p ∈ ancestors (k + 2) p ∧ Dir p ∈ ancestors (k + 2) p ∧ Dir (Dir p) ∈ ancestors (k + 2) p := by
  obtain ⟨t, ht⟩ := ancestors_head k (Dir (Dir p))
  simp [ancestors, ht]

theorem takeWhile_append_all (p : Char → Bool) (l m : List Char) (h : ∀ a ∈ l, p a = true) :
    (l ++ m).takeWhile p = l ++ m.takeWhile p := by
  induction l with
  | nil => rfl
  | cons a l ih =>
    have ha := h a (by simp)
    rw [List.cons_append, List.takeWhile_cons, ha]
    simp only [if_true]
    rw [ih (fun b hb => h b (List.mem_cons_of_mem _ hb))]
    rfl

/-- The last element of a path that ends in a plain name. -/
theorem Base_append_leaf (x k : Str) (hk : isLeafName k = true)
    (hx : x = [] ∨ x.getLast? = some Separator) : Base (x ++ k) = k := by
  have hk0 := hk
  simp only [isLeafName, Bool.and_eq_true, bne_iff_ne, ne_eq, Bool.not_eq_true',
    List.contains_eq_any_beq, List.any_eq_false, beq_iff_eq] at hk
  have hne : k ≠ [] := hk.1.1.1
  have hsep : ∀ c ∈ k, c ≠ Separator := fun c hc e => hk.1.1.2 c hc e.symm
  have hxk : x ++ k ≠ [] := by simp [hne]
  -- the reversed name starts with a character that is not a separator
  obtain ⟨c, t, hrev⟩ : ∃ c t, k.reverse = c :: t := by
    cases hr : k.reverse with
    | nil => exact absurd (List.reverse_eq_nil_iff.1 hr) hne
    | cons c t => exact ⟨c, t, rfl⟩
  have hc : c ≠ Separator := hsep c (by
    have : c ∈ k.reverse := by rw [hrev]; simp
    simpa using this)
  have hstrip : stripTrailingSeparators (x ++ k) = x ++ k := by
    unfold stripTrailingSeparators
    rw [List.reverse_append, hrev, List.cons_append, List.dropWhile_cons]
    have : (c == Separator) = false := by simpa using hc
    simp only [this, Bool.false_eq_true, if_false]
    rw [← List.cons_append, ← hrev, ← List.reverse_append, List.reverse_reverse]
  have htw : ((x ++ k).reverse.takeWhile (fun c => c != Separator)) = k.reverse := by
    rw [List.reverse_append, takeWhile_append_all _ _ _ (fun a ha => by
      have : a ∈ k := by simpa using ha
      simpa using hsep a this)]
    have : x.reverse.takeWhile (fun c => c != Separator) = [] := by
      rcases hx with h | h
      · subst h; rfl
      · cases hxr : x.reverse with
        | nil => rfl
        | cons y ys =>
          have hy : y = Separator := by
            have : x.getLast? = some y := by
              rw [← List.head?_reverse, hxr]; rfl
            rw [h] at this
            exact (Option.some.inj this).symm
          subst hy
          rw [takeWhile_cons_sep]
    rw [this, List.append_nil]
  unfold Base
  rw [if_neg hxk]
  simp only [hstrip, htw, List.reverse_reverse, hne, if_false]

theorem Base_leaf (k : Str) (hk : isLeafName k = true) : Base k = k := by
  simpa using Base_append_leaf [] k hk (Or.inl rfl)

theorem Base_root_leaf (p k : Str) (hk : isLeafName k = true) :
    Base (p ++ Separator :: k) = k := by
  have := Base_append_leaf (p ++ [Separator]) k hk (Or.inr (by simp))
  simpa using this

/-- The loop of `NewVolumeRoot` with the bind factory: the names listed get
their bind volumes. -/
theorem scanVolumes_bind (rootPath rname : Str) (dirs : List Str) (opts : Options)
    (vols : Str → Option LocalVolume) :
    scanVolumes newBindVolume rootPath rname dirs opts vols =
      some (fun k => if k ∈ dirs.map Base then some (bindVolumeOf k rootPath rname)
        else vols k) := by
  induction dirs generalizing vols with
  | nil => simp [scanVolumes]
  | cons d dirs ih =>
    simp only [scanVolumes, newBindVolume]
    rw [ih]
    congr 1
    funext k
    by_cases h1 : k ∈ dirs.map Base
    · simp [h1]
    · by_cases h2 : k = Base d
      · subst h2
        simp [h1, mapInsert, bindVolumeOf]
      · simp [h1, h2, mapInsert]

/-- `NewVolumeRoot` on the model file system, with the bind factory. -/
theorem NewVolumeRoot_model (pat : Str → Bool) (fs : ToyFS) (scope name base : Str)
    (uid gid : Int) :
    NewVolumeRoot (modelEnv pat) fs scope name base uid gid newBindVolume =
      (.ok { scope := scope, name := name, path := Join [scope, base],
             volumes := fun k =>
               if k ∈ (((ancestors ((Join [scope, base]).length + 1) (Join [scope, base]) ++
                    fs.dirs).filter
                  (fun q => Dir q == Join [scope, base] && q != Join [scope, base])).map
                    Base).map Base
               then some (bindVolumeOf k (Join [scope, base]) name) else none,
             rootUID := uid, rootGID := gid, factory := newBindVolume },
       { fs with dirs := ancestors ((Join [scope, base]).length + 1) (Join [scope, base]) ++
           fs.dirs }) := by
  obtain ⟨t, ht⟩ := ancestors_head (Join [scope, base]).length (Dir (Join [scope, base]))
  have hmem : (ancestors ((Join [scope, base]).length + 1) (Join [scope, base]) ++
      fs.dirs).contains (Join [scope, base]) = true := by
    simp [ancestors]
  simp only [NewVolumeRoot, modelEnv, toyEnv, hmem, if_true, scanVolumes_bind]

theorem ancestors_no_child (k : Nat) (p q : Str) (hp : Clean p = p)
    (hq : q ∈ ancestors k p) (hd : Dir q = p) : q = p := by
  obtain ⟨hq1, hq2⟩ := ancestors_mem k p q hp hq
  rcases hq2 with h | h
  · exact h
  · have hlen : (elemsOf (Dir q)).length = (elemsOf q).length - 1 := by
      rw [(Dir_of_clean q hq1).2.2]; simp
    rw [hd] at hlen
    omega

theorem root_leaf_ne (p k : Str) : p ++ Separator :: k ≠ p := by
  intro h
  have := congrArg List.length h
  simp at this

/-- The names `NewVolumeRoot` lists, for a registry and a file system that
agree: exactly the registered names. -/
theorem Agree.listed {rootPath driverName : Str} {r : Root} {fs : ToyFS}
    (h : Agree rootPath driverName r fs) (hroot : GoodRoot rootPath) (k : Str) :
    k ∈ (((ancestors (rootPath.length + 1) rootPath ++ fs.dirs).filter
        (fun q => Dir q == rootPath && q != rootPath)).map Base).map Base ↔
      (r.volumes k).isSome = true := by
  obtain ⟨_, _, _, _, _, _, h4, h3⟩ := h
  simp only [List.map_map, List.mem_map, List.mem_filter, List.mem_append, Bool.and_eq_true,
    beq_iff_eq, bne_iff_ne, ne_eq, Function.comp_apply]
  constructor
  · rintro ⟨q, ⟨hq, hd, hne⟩, hb⟩
    rcases hq with hq | hq
    · exact absurd (ancestors_no_child _ _ _ hroot.1 hq hd) hne
    · obtain ⟨k1, hk1, rfl⟩ := h3 q hq hd hne
      obtain ⟨v, hv⟩ := Option.isSome_iff_exists.1 hk1
      have hleaf := (h4 k1 v hv).1
      rw [Base_root_leaf _ _ hleaf, Base_leaf _ hleaf] at hb
      rw [← hb]; exact hk1
  · intro hk
    obtain ⟨v, hv⟩ := Option.isSome_iff_exists.1 hk
    obtain ⟨hleaf, _, hmem⟩ := h4 k v hv
    refine ⟨rootPath ++ Separator :: k, ⟨Or.inr hmem, (hroot.child k hleaf).2.2,
      root_leaf_ne _ _⟩, ?_⟩
    rw [Base_root_leaf _ _ hleaf, Base_leaf _ hleaf]

/-- Restarting on a file system that agrees with the registry gives the same
`volumes` mapping. -/
theorem Agree.restart {driverName : Str} {r : Root} {fs : ToyFS} (pat : Str → Bool)
    (scope base : Str) (uid gid : Int)
    (h : Agree (Join [scope, base]) driverName r fs) (hroot : GoodRoot (Join [scope, base])) :
    ∃ r1 fs1, NewVolumeRoot (modelEnv pat) fs scope driverName base uid gid newBindVolume =
        (.ok r1, fs1) ∧ r1.volumes = r.volumes := by
  refine ⟨_, _, NewVolumeRoot_model pat fs scope driverName base uid gid, ?_⟩
  funext k
  simp only
  by_cases hk : (r.volumes k).isSome = true
  · rw [if_pos ((h.listed hroot k).2 hk)]
    obtain ⟨v, hv⟩ := Option.isSome_iff_exists.1 hk
    rw [hv, (h.2.2.2.2.2.2.1 k v hv).2.1]
  · rw [if_neg (fun hm => hk ((h.listed hroot k).1 hm))]
    cases hv : r.volumes k with
    | none => rfl
    | some v => simp [hv] at hk

/-- A registry started on an empty managed root is empty and agrees with the
file system. -/
theorem Agree.start (pat : Str → Bool) (fs0 : ToyFS) (scope name base : Str) (uid gid : Int)
    (hlinks : fs0.links = []) (hlocked : fs0.locked = [])
    (hroot : GoodRoot (Join [scope, base]))
    (hempty : ∀ q ∈ fs0.dirs, Dir q = Join [scope, base] → q = Join [scope, base]) :
    ∃ r0 fs1, NewVolumeRoot (modelEnv pat) fs0 scope name base uid gid newBindVolume =
        (.ok r0, fs1) ∧ (∀ k, r0.volumes k = none) ∧ Agree (Join [scope, base]) name r0 fs1 := by
  have hno : ∀ q ∈ ancestors ((Join [scope, base]).length + 1) (Join [scope, base]) ++ fs0.dirs,
      Dir q = Join [scope, base] → q = Join [scope, base] := by
    intro q hq hd
    rcases List.mem_append.1 hq with h | h
    · exact ancestors_no_child _ _ _ hroot.1 h hd
    · exact hempty q h hd
  have hnone : ∀ k, ¬ k ∈ (((ancestors ((Join [scope, base]).length + 1) (Join [scope, base]) ++
      fs0.dirs).filter (fun q => Dir q == Join [scope, base] && q != Join [scope, base])).map
        Base).map Base := by
    intro k hk
    simp only [List.map_map, List.mem_map, List.mem_filter, Bool.and_eq_true,
      beq_iff_eq, bne_iff_ne, ne_eq, Function.comp_apply] at hk
    obtain ⟨q, ⟨hq, hd, hne⟩, _⟩ := hk
    exact hne (hno q hq hd)
  refine ⟨_, _, NewVolumeRoot_model pat fs0 scope name base uid gid, ?_, ?_⟩
  · intro k
    simp only [if_neg (hnone k)]
  · refine ⟨rfl, rfl, rfl, hlinks, hlocked, ?_, ?_, ?_⟩
    · simp [ancestors]
    · intro k v hv
      simp only [if_neg (hnone k)] at hv
      exact absurd hv (by simp)
    · intro q hq hd hne
      exact absurd (hno q hq hd) hne

/-- `Create` keeps the registry and the file system in agreement. -/
theorem Agree.Create {rootPath driverName : Str} {r : Root} {fs : ToyFS}
    (h : Agree rootPath driverName r fs) (hroot : GoodRoot rootPath) (pat : Str → Bool)
    (n : Str) (hleaf : isLeafName n = true) (o : Options) :
    Agree rootPath driverName (r.Create (modelEnv pat) fs n o).root
      (r.Create (modelEnv pat) fs n o).fs := by
  obtain ⟨hp, hn, hf, hl, hk, hr, h4, h3⟩ := h
  cases hval : r.validateName (modelEnv pat) n with
  | some err =>
    have : r.Create (modelEnv pat) fs n o = ⟨.error err, r, fs, []⟩ := by
      simp [Root.Create, hval]
    rw [this]
    exact ⟨hp, hn, hf, hl, hk, hr, h4, h3⟩
  | none =>
    cases hv : r.volumes n with
    | some v0 =>
      have : r.Create (modelEnv pat) fs n o = ⟨validVolume v0, r, fs, []⟩ := by
        simp [Root.Create, hval, hv]
      rw [this]
      exact ⟨hp, hn, hf, hl, hk, hr, h4, h3⟩
    | none =>
      obtain ⟨hd1, hd2, _, _⟩ := dataPath_of_GoodRoot hroot n hleaf
      have hfac : r.factory n r.path r.Name o = some (bindVolumeOf n rootPath driverName, o) := by
        rw [hf, hp]
        simp [newBindVolume, bindVolumeOf, Root.Name, hn]
      have hinit : (bindVolumeOf n rootPath driverName).Init (modelEnv pat) fs r.rootUID
          r.rootGID = (fs.withDirs (dataPath n rootPath), none) := by
        simp [LocalVolume.Init, modelEnv, toyEnv, bindVolumeOf, LocalVolume.Path,
          ToyFS.withDirs]
      have hstep : r.Create (modelEnv pat) fs n o =
          ⟨validVolume (bindVolumeOf n rootPath driverName),
            { r with volumes := mapInsert r.volumes n (bindVolumeOf n rootPath driverName) },
            fs.withDirs (dataPath n rootPath),
            [Call.factory n r.path r.Name o,
             Call.Init (bindVolumeOf n rootPath driverName).Path r.rootUID r.rootGID,
             Call.MkdirAllAs (bindVolumeOf n rootPath driverName).Path 0o755 r.rootUID
               r.rootGID]⟩ := by
        simp [Root.Create, hval, hv, hfac, hinit]
      rw [hstep]
      have hanc := ancestors_two ((dataPath n rootPath).length - 1) (dataPath n rootPath)
      have hlen2 : (dataPath n rootPath).length - 1 + 2 = (dataPath n rootPath).length + 1 := by
        have : 0 < (dataPath n rootPath).length := by rw [hd1]; simp
        omega
      rw [hlen2, hd2] at hanc
      simp only [ToyFS.withDirs]
      refine ⟨hp, hn, hf, hl, hk, List.mem_append_right _ hr, ?_, ?_⟩
      · intro k v hkv
        simp only [mapInsert] at hkv
        split at hkv
        · rename_i e
          subst e
          simp only [Option.some.injEq] at hkv
          exact ⟨hleaf, hkv.symm, List.mem_append_left _ hanc.2.1⟩
        · obtain ⟨a, b, c⟩ := h4 k v hkv
          exact ⟨a, b, List.mem_append_right _ c⟩
      · intro q hq hdq hne
        rcases List.mem_append.1 hq with hq | hq
        · -- a directory made by `Init`: the data path, the directory of the
          -- volume, or an ancestor of the root
          refine ⟨n, by simp [mapInsert], ?_⟩
          have hcl := (dataPath_of_GoodRoot hroot n hleaf).2.2.1
          have hel := (dataPath_of_GoodRoot hroot n hleaf).2.2.2
          obtain ⟨hq1, hq2⟩ := ancestors_mem _ _ q hcl hq
          have hlenq : (elemsOf (Dir q)).length = (elemsOf q).length - 1 := by
            rw [(Dir_of_clean q hq1).2.2]; simp
          rw [hdq] at hlenq
          rcases hq2 with e | e
          · rw [e, hel] at hlenq
            simp at hlenq
          · -- fewer elements than the data path and one more than the root
            have hq3 : (elemsOf q).length = (elemsOf rootPath).length + 1 := by
              rw [hel] at e
              simp at e
              have h0 := hroot.elems_ne_nil
              have : 0 < (elemsOf rootPath).length := List.length_pos.2 h0
              omega
            -- it is among the ancestors of the directory of the volume
            have hq4 : q ∈ ancestors (dataPath n rootPath).length
                (rootPath ++ Separator :: n) := by
              have : ancestors ((dataPath n rootPath).length + 1) (dataPath n rootPath) =
                  dataPath n rootPath :: ancestors (dataPath n rootPath).length
                    (rootPath ++ Separator :: n) := by
                simp [ancestors, hd2]
              rw [this] at hq
              rcases List.mem_cons.1 hq with e1 | e1
              · rw [e1, hel] at hq3; simp at hq3
              · exact e1
            rcases (ancestors_mem _ _ q (hroot.child n hleaf).1.1 hq4).2 with e1 | e1
            · exact e1
            · rw [(hroot.child n hleaf).2.1] at e1
              simp at e1
              omega
        · obtain ⟨k, hk1, hk2⟩ := h3 q hq hdq hne
          refine ⟨k, ?_, hk2⟩
          simp only [mapInsert]
          split
          · rfl
          · exact hk1

theorem removePath_model (pat : Str → Bool) (fs : ToyFS) (p : Str) (hk : fs.locked = []) :
    removePath (modelEnv pat) fs p = (fs.without p, none) := by
  simp [removePath, modelEnv, toyEnv, hk, ToyFS.without]

theorem ne_of_depth {p q : Str} (h : (elemsOf p).length ≠ (elemsOf q).length) : p ≠ q := by
  rintro rfl
  exact h rfl

/-- Removing the data path or the directory of the volume `n` leaves the
managed root and the directories of the other volumes in place. -/
theorem inTree_volume {rootPath : Str} (hroot : GoodRoot rootPath) (n : Str)
    (hn : isLeafName n = true) (x : Str)
    (hx : x = dataPath n rootPath ∨ x = rootPath ++ Separator :: n) :
    inTree x rootPath = false ∧
    ∀ k, isLeafName k = true → k ≠ n → inTree x (rootPath ++ Separator :: k) = false := by
  have hdn := (dataPath_of_GoodRoot hroot n hn).2.2.2
  have hrn := (hroot.child n hn).2.1
  have hxd : (elemsOf rootPath).length + 1 ≤ (elemsOf x).length := by
    rcases hx with rfl | rfl
    · rw [hdn]; simp
    · rw [hrn]; simp
  refine ⟨not_inTree_of_length hroot.1 (ne_of_depth (by omega)) (by omega), ?_⟩
  intro k hk hkn
  have hrk := (hroot.child k hk).2.1
  have hlen : (elemsOf (rootPath ++ Separator :: k)).length = (elemsOf rootPath).length + 1 := by
    rw [hrk]; simp
  refine not_inTree_of_length (hroot.child k hk).1.1 ?_ (by omega)
  rcases hx with rfl | rfl
  · apply ne_of_depth
    rw [hdn, hlen]; simp
  · intro e
    have := List.append_cancel_left e
    simp only [List.cons.injEq, true_and] at this
    exact hkn this.symm

/-- `Remove` of a bind volume of the registry with a plain name keeps the
registry and the file system in agreement. -/
theorem Agree.Remove {rootPath driverName : Str} {r : Root} {fs : ToyFS}
    (h : Agree rootPath driverName r fs) (hroot : GoodRoot rootPath) (pat : Str → Bool)
    (n : Str) (hn : isLeafName n = true) :
    Agree rootPath driverName
      (r.Remove (modelEnv pat) fs (.localVol (bindVolumeOf n rootPath driverName))).root
      (r.Remove (modelEnv pat) fs (.localVol (bindVolumeOf n rootPath driverName))).fs := by
  obtain ⟨hp, hnm, hf, hl, hk, hr, h4, h3⟩ := h
  obtain ⟨hd1, hd2, _, _⟩ := dataPath_of_GoodRoot hroot n hn
  have hpath : (bindVolumeOf n rootPath driverName).Path = dataPath n rootPath := rfl
  have hname : (bindVolumeOf n rootPath driverName).Name = n := rfl
  -- the real path is the data path, or its parent when the data path is gone
  obtain ⟨x, hx, hreal⟩ : ∃ x, (x = dataPath n rootPath ∨ x = rootPath ++ Separator :: n) ∧
      (bindVolumeOf n rootPath driverName).RealPath (modelEnv pat) fs = .ok x := by
    by_cases hc : fs.dirs.contains (dataPath n rootPath) = true
    · exact ⟨_, Or.inl rfl, by
        simp only [LocalVolume.RealPath, modelEnv, toyEnv, hpath, hl, List.lookup, hc, if_true]⟩
    · refine ⟨_, Or.inr rfl, ?_⟩
      have hc1 : fs.dirs.contains (dataPath n rootPath) = false := by simpa using hc
      simp only [LocalVolume.RealPath, modelEnv, toyEnv, hpath, hl, List.lookup, hc1,
        Bool.false_eq_true, if_false, hd2]
      rfl
  have hscoped : r.scopedPath x = true := by
    have hpre : ∃ t, x = rootPath ++ Separator :: t := by
      rcases hx with rfl | rfl
      · exact ⟨n ++ Separator :: VolumeDataPathName, by rw [hd1]; simp⟩
      · exact ⟨n, rfl⟩
    obtain ⟨t, rfl⟩ := hpre
    simp only [Root.scopedPath, hp]
    rw [HasPrefix_append]
    simp
  have hstep : r.Remove (modelEnv pat) fs (.localVol (bindVolumeOf n rootPath driverName)) =
      ⟨.ok (), { r with volumes := mapDelete r.volumes n },
        (fs.without x).without (rootPath ++ Separator :: n),
        [Call.EvalSymlinks (dataPath n rootPath), Call.RemoveAll x,
         Call.RemoveAll (rootPath ++ Separator :: n)]⟩ := by
    have h1 := removePath_model pat fs x hk
    have h2 := removePath_model pat (fs.without x) (rootPath ++ Separator :: n) hk
    simp [Root.Remove, hreal, hscoped, h1, hpath, hname, hd2, h2]
  rw [hstep]
  obtain ⟨hx1, hx2⟩ := inTree_volume hroot n hn x hx
  obtain ⟨hy1, hy2⟩ := inTree_volume hroot n hn (rootPath ++ Separator :: n) (Or.inr rfl)
  have hmem : ∀ q, q ∈ ((fs.without x).without (rootPath ++ Separator :: n)).dirs ↔
      q ∈ fs.dirs ∧ inTree x q = false ∧ inTree (rootPath ++ Separator :: n) q = false := by
    intro q
    simp only [ToyFS.without, List.mem_filter, Bool.not_eq_true', and_assoc]
  refine ⟨hp, hnm, hf, by simp [ToyFS.without, hl], hk, (hmem _).2 ⟨hr, hx1, hy1⟩, ?_, ?_⟩
  · intro k v hkv
    simp only [mapDelete] at hkv
    split at hkv
    · simp at hkv
    · rename_i hne
      obtain ⟨a, b, c⟩ := h4 k v hkv
      exact ⟨a, b, (hmem _).2 ⟨c, hx2 k a hne, hy2 k a hne⟩⟩
  · intro q hq hdq hne
    obtain ⟨hq1, _, hq3⟩ := (hmem q).1 hq
    obtain ⟨k, hk1, hk2⟩ := h3 q hq1 hdq hne
    refine ⟨k, ?_, hk2⟩
    have hkn : k ≠ n := by
      rintro rfl
      rw [hk2, inTree_of_eq_or_parent _ _ (Or.inl rfl)] at hq3
      simp at hq3
    simp [mapDelete, hkn, hk1]

/-- A sequence of calls of the registry keeps the registry and the file
system in agreement. -/
theorem Agree.run {rootPath driverName : Str} (hroot : GoodRoot rootPath) (pat : Str → Bool)
    (ops : List RootOp) :
    ∀ (r : Root) (fs : ToyFS), Agree rootPath driverName r fs →
      (∀ op ∈ ops, op.ofRegistry rootPath driverName = true) →
      Agree rootPath driverName (runRoot (modelEnv pat) (r, fs) ops).1
        (runRoot (modelEnv pat) (r, fs) ops).2 := by
  induction ops with
  | nil => intro r fs h _; exact h
  | cons op ops ih =>
    intro r fs h hops
    have hop := hops op (by simp)
    have hrest : ∀ op1 ∈ ops, op1.ofRegistry rootPath driverName = true :=
      fun op1 h1 => hops op1 (List.mem_cons_of_mem _ h1)
    simp only [runRoot, List.foldl_cons]
    cases op with
    | Create n o => exact ih _ _ (h.Create hroot pat n hop o) hrest
    | Remove v =>
      cases v with
      | adapter a => simp [RootOp.ofRegistry] at hop
      | localVol lv =>
        simp only [RootOp.ofRegistry, Bool.and_eq_true, beq_iff_eq] at hop
        have := h.Remove hroot pat lv.Name hop.1
        rw [← hop.2] at this
        exact ih _ _ this hrest

theorem Join_GoodRoot (l : List Str) (h0 : Join l ≠ []) (h1 : Join l ≠ [Separator])
    (h2 : Join l ≠ ['.']) : GoodRoot (Join l) := by
  rcases Join_eq_nil_or_Clean l with h | ⟨x, hx⟩
  · exact absurd h h0
  · refine ⟨?_, h1, h2⟩
    rw [hx, Clean_eq_renderPath x]
    exact Clean_renderPath _ _ (cleanElems_splitPath_clean _ x)

/-- C11 as stated fails. After a `Remove` that failed while deleting the
directory of the volume, the entry is gone from the `volumes` mapping but the
directory is still there, so `NewVolumeRoot` on the same scope and base
registers the name again. A tmpfs volume created with a mode of its own
has the mount data `mode=700,size=755`, while `NewVolumeRoot` gives the
volume of that name the mount data `mode=755,size=755`. And with a name
pattern that admits a separator in front of the name, `Create` of `/ab`
registers the key `/ab`, while `NewVolumeRoot` finds the directory `ab` and
registers the key `ab`. -/
theorem restart_differs :
    (∃ r0 fs1, NewVolumeRoot toyEnv busyFS "/var/lib/docker".toList "local".toList
        "volumes".toList 0 0 newBindVolume = (.ok r0, fs1) ∧
      (∀ k, r0.volumes k = none) ∧
      ((runRoot toyEnv (r0, fs1) [RootOp.Create "db".toList (some [])]).1.Remove toyEnv
        (runRoot toyEnv (r0, fs1) [RootOp.Create "db".toList (some [])]).2
        (.localVol dbVolume)).out = .error (Error.os OSError.permission) ∧
      (runRoot toyEnv (r0, fs1) [RootOp.Create "db".toList (some []),
        RootOp.Remove (.localVol dbVolume)]).1.volumes "db".toList = none ∧
      ∃ r1 fs2, NewVolumeRoot toyEnv
          (runRoot toyEnv (r0, fs1) [RootOp.Create "db".toList (some []),
            RootOp.Remove (.localVol dbVolume)]).2
          "/var/lib/docker".toList "local".toList "volumes".toList 0 0 newBindVolume =
            (.ok r1, fs2) ∧
        r1.volumes "db".toList = some dbVolume) ∧
    (∃ r0 fs1, NewVolumeRoot toyEnv scopeFS "/var/lib/docker".toList "tmpfs".toList
        "tmpfs".toList 0 0 newTmpfsVolume = (.ok r0, fs1) ∧
      (∀ k, r0.volumes k = none) ∧
      ((runRoot toyEnv (r0, fs1)
        [RootOp.Create "cache".toList (some [(modeKey, "700".toList)])]).1.volumes
          "cache".toList).map mountData = some "mode=700,size=755".toList ∧
      ∃ r1 fs2, NewVolumeRoot toyEnv
          (runRoot toyEnv (r0, fs1)
            [RootOp.Create "cache".toList (some [(modeKey, "700".toList)])]).2
          "/var/lib/docker".toList "tmpfs".toList "tmpfs".toList 0 0 newTmpfsVolume =
            (.ok r1, fs2) ∧
        (r1.volumes "cache".toList).map mountData = some "mode=755,size=755".toList) ∧
    (∃ r0 fs1, NewVolumeRoot toyEnv scopeFS "/var/lib/docker".toList "local".toList
        "volumes".toList 0 0 newBindVolume = (.ok r0, fs1) ∧
      (∀ k, r0.volumes k = none) ∧
      (runRoot toyEnv (r0, fs1) [RootOp.Create "/ab".toList (some [])]).1.volumes
        "/ab".toList =
          some (bindVolumeOf "/ab".toList "/var/lib/docker/volumes".toList "local".toList) ∧
      (runRoot toyEnv (r0, fs1) [RootOp.Create "/ab".toList (some [])]).1.volumes
        "ab".toList = none ∧
      ∃ r1 fs2, NewVolumeRoot toyEnv
          (runRoot toyEnv (r0, fs1) [RootOp.Create "/ab".toList (some [])]).2
          "/var/lib/docker".toList "local".toList "volumes".toList 0 0 newBindVolume =
            (.ok r1, fs2) ∧
        r1.volumes "/ab".toList = none ∧
        r1.volumes "ab".toList =
          some (bindVolumeOf "ab".toList "/var/lib/docker/volumes".toList "local".toList)) := by
  refine ⟨?_, ?_, ?_⟩
  · refine ⟨_, _, rfl, fun k => rfl, ?_, ?_, _, _, rfl, ?_⟩
    · decide
    · decide
    · decide
  · refine ⟨_, _, rfl, fun k => rfl, ?_, _, _, rfl, ?_⟩
    · decide
    · decide
  · refine ⟨_, _, rfl, fun k => rfl, ?_, ?_, _, _, rfl, ?_, ?_⟩
    · decide
    · decide
    · decide
    · decide

/-- C11, amended: on a file system that holds directories only and on which
no call fails, whatever the name pattern is, start a registry of bind volumes
with `NewVolumeRoot` on a managed root (`filepath.Join(scope, base)`, not
empty and other than `/` and `.`) that has no directory in it. The registry
starts empty, and after every sequence of `Create` calls with plain names
(one directory entry each: not empty, no separator, neither `.` nor `..`;
the pattern may accept or reject them) and of `Remove` calls on bind volumes
of the registry with such names: every key of the `volumes` mapping is a
plain name whose directory exists directly under the managed root, mapped to
the bind volume of that name, and `NewVolumeRoot` on the same scope and base
succeeds with the same `volumes` mapping. -/
theorem restart_equivalent (pat : Str → Bool) (scope name base : Str) (uid gid : Int)
    (fs0 : ToyFS) (hlinks : fs0.links = []) (hlocked : fs0.locked = [])
    (hr0 : Join [scope, base] ≠ []) (hr1 : Join [scope, base] ≠ [Separator])
    (hr2 : Join [scope, base] ≠ ['.'])
    (hempty : ∀ q ∈ fs0.dirs, Dir q = Join [scope, base] → q = Join [scope, base])
    (ops : List RootOp) (hops : ∀ op ∈ ops, op.ofRegistry (Join [scope, base]) name = true) :
    ∃ r0 fs1, NewVolumeRoot (modelEnv pat) fs0 scope name base uid gid newBindVolume =
        (.ok r0, fs1) ∧
      (∀ k, r0.volumes k = none) ∧
      (∀ k v, (runRoot (modelEnv pat) (r0, fs1) ops).1.volumes k = some v →
        isLeafName k = true ∧
        toyExists (runRoot (modelEnv pat) (r0, fs1) ops).2
          (Join [scope, base] ++ Separator :: k) = true ∧
        Dir (Join [scope, base] ++ Separator :: k) = Join [scope, base] ∧
        Base (Join [scope, base] ++ Separator :: k) = k ∧
        v = bindVolumeOf k (Join [scope, base]) name) ∧
      ∃ r1 fs2, NewVolumeRoot (modelEnv pat) (runRoot (modelEnv pat) (r0, fs1) ops).2 scope name
          base uid gid newBindVolume = (.ok r1, fs2) ∧
        r1.volumes = (runRoot (modelEnv pat) (r0, fs1) ops).1.volumes := by
  have hroot := Join_GoodRoot [scope, base] hr0 hr1 hr2
  obtain ⟨r0, fs1, hstart, hnone, hagree⟩ :=
    Agree.start pat fs0 scope name base uid gid hlinks hlocked hroot hempty
  have hrun := Agree.run hroot pat ops r0 fs1 hagree hops
  refine ⟨r0, fs1, hstart, hnone, ?_, hrun.restart pat scope base uid gid hroot⟩
  intro k v hkv
  obtain ⟨a, b, c⟩ := hrun.2.2.2.2.2.2.1 k v hkv
  exact ⟨a, by simpa [toyExists] using c, (hroot.child k a).2.2, Base_root_leaf _ _ a, b⟩

theorem restart_equivalent_witness :
    (∀ q ∈ scopeFS.dirs, Dir q = Join ["/var/lib/docker".toList, "volumes".toList] →
      q = Join ["/var/lib/docker".toList, "volumes".toList]) ∧
    (∀ op ∈ [RootOp.Create "db".toList (some []), RootOp.Create "cache".toList none,
        RootOp.Remove (.localVol dbVolume)],
      op.ofRegistry (Join ["/var/lib/docker".toList, "volumes".toList]) "local".toList = true) ∧
    ∃ r0 fs1, NewVolumeRoot toyEnv scopeFS "/var/lib/docker".toList
        "local".toList "volumes".toList 0 0 newBindVolume = (.ok r0, fs1) ∧
      ∃ r1 fs2, NewVolumeRoot toyEnv
          (runRoot toyEnv (r0, fs1)
            [RootOp.Create "db".toList (some []), RootOp.Create "cache".toList none,
              RootOp.Remove (.localVol dbVolume)]).2
          "/var/lib/docker".toList "local".toList "volumes".toList 0 0 newBindVolume =
            (.ok r1, fs2) ∧
        r1.volumes = (runRoot toyEnv (r0, fs1)
          [RootOp.Create "db".toList (some []), RootOp.Create "cache".toList none,
            RootOp.Remove (.localVol dbVolume)]).1.volumes :=
  have h := restart_equivalent toyNamePattern "/var/lib/docker".toList
    "local".toList "volumes".toList 0 0 scopeFS rfl rfl (by decide) (by decide) (by decide)
    (by decide) [RootOp.Create "db".toList (some []), RootOp.Create "cache".toList none,
      RootOp.Remove (.localVol dbVolume)] (by decide)
  ⟨by decide, by decide, h.elim fun r0 h0 => h0.elim fun fs1 h1 =>
    ⟨r0, fs1, h1.1, h1.2.2.2⟩⟩

/-! ## `Remove` a second time -/

theorem foldl_cleanStep_down (rooted : Bool) (l : List Str) (h : ∀ c ∈ l, c ≠ ['.', '.']) :
    ∀ st, l.foldl (cleanStep rooted) st =
      (l.filter (fun c => c != [] && c != ['.'])).reverse ++ st := by
  induction l with
  | nil => intro st; rfl
  | cons c l ih =>
    intro st
    have hc := h c (by simp)
    have hl : ∀ d ∈ l, d ≠ ['.', '.'] := fun d hd => h d (List.mem_cons_of_mem _ hd)
    rw [List.foldl_cons, ih hl]
    by_cases h1 : c = [] ∨ c = ['.']
    · have h2 : (c != [] && c != ['.']) = false := by
        rcases h1 with rfl | rfl <;> decide
      simp only [cleanStep, h1, if_true, List.filter_cons, h2]
      simp
    · have h2 : (c != [] && c != ['.']) = true := by
        simp only [not_or] at h1
        simp [h1.1, h1.2]
      simp only [cleanStep, h1, if_false, hc, List.filter_cons, h2, if_true]
      simp

/-- A name that leads downwards, joined onto a cleaned path other than `/`
and `.`, gives a path below it. -/
theorem Join_root_down {p : Str} (h : GoodRoot p) (n : Str) (hn : isDownName n = true) :
    ∃ t, Join [p, n] = p ++ Separator :: t := by
  simp only [isDownName, Bool.and_eq_true, List.all_eq_true, List.any_eq_true, bne_iff_ne,
    ne_eq] at hn
  obtain ⟨hall, c, hc, hreal⟩ := hn
  have hp := h.path_ne_nil
  have hst : (splitPath p).foldl (cleanStep (isRooted p)) [] = (elemsOf p).reverse := by
    simp [elemsOf, cleanElems]
  have hds : (splitPath n).filter (fun c => c != [] && c != ['.']) ≠ [] := by
    intro h0
    have : c ∈ (splitPath n).filter (fun c => c != [] && c != ['.']) :=
      List.mem_filter.2 ⟨hc, by simpa using hreal⟩
    rw [h0] at this
    simp at this
  rw [Join_pair _ _ hp, Clean_append _ _ hp, foldl_cleanStep_down _ _ hall, hst,
    List.reverse_append, List.reverse_reverse, List.reverse_reverse,
    renderPath_append _ _ _ h.elems_ne_nil hds, ← eq_renderPath_of_clean p h.1]
  exact ⟨_, rfl⟩

theorem isDownName_of_leaf (n : Str) (hn : isLeafName n = true) : isDownName n = true := by
  have hs := splitPath_leaf n hn
  simp only [isLeafName, Bool.and_eq_true, bne_iff_ne, ne_eq] at hn
  obtain ⟨⟨⟨h1, _⟩, h3⟩, h4⟩ := hn
  simp [isDownName, hs, h1, h3, h4]

theorem mem_of_lookup (p t : Str) : ∀ (l : List (Str × Str)), l.lookup p = some t → (p, t) ∈ l := by
  intro l
  induction l with
  | nil => simp
  | cons x l ih =>
    obtain ⟨a, b⟩ := x
    by_cases ha : p = a
    · subst ha
      simp only [List.lookup, beq_self_eq_true, Option.some.injEq]
      intro h1
      simp [h1]
    · have hb : (p == a) = false := by simpa using ha
      simp only [List.lookup, hb]
      intro h1
      exact List.mem_cons_of_mem _ (ih h1)

/-- On the toy file system a path in a directory that does not exist does not
exist: `EvalSymlinks` reports so. -/
theorem toyEnv_EvalSymlinks_orphan (fs : ToyFS) (p : Str)
    (h : toyPresent fs (Dir p) = false) :
    ∃ e, toyEnv.EvalSymlinks fs p = .error e ∧ IsNotExist e = true := by
  obtain ⟨_, _, _, h4, h5⟩ := toyPresent_self fs (Dir p) h
  have hin : inTree (Dir p) p = true := inTree_of_eq_or_parent (Dir p) p (Or.inr rfl)
  have h1 : fs.dirs.contains p = false := by
    cases hc : fs.dirs.contains p with
    | false => rfl
    | true =>
      have hm : p ∈ fs.dirs := by simpa using hc
      rw [h4 p hm] at hin
      exact absurd hin (by decide)
  have h2 : fs.links.lookup p = none := by
    cases hl : fs.links.lookup p with
    | none => rfl
    | some t =>
      have := h5 (p, t) (mem_of_lookup p t _ hl)
      rw [this] at hin
      exact absurd hin (by decide)
  exact ⟨OSError.notExist, by simp only [toyEnv, h1, h2]; rfl, rfl⟩

/-- On the toy file system a path that `RemoveAll` removed without an error
is no longer there, with everything below it. -/
theorem toyEnv_RemoveAll_clears (fs : ToyFS) (p : Str)
    (h : ∀ e, (toyEnv.RemoveAll fs p).2 = some e → IsNotExist e = true) :
    toyPresent (toyEnv.RemoveAll fs p).1 p = false := by
  simp only [toyEnv] at h ⊢
  split
  · rename_i hl
    have := h OSError.permission (by simp [hl])
    exact absurd this (by decide)
  · rename_i hl
    simp only [toyPresent, Bool.or_eq_false_iff, List.any_eq_false, List.mem_filter]
    refine ⟨⟨?_, ?_⟩, ?_⟩
    · rintro q ⟨_, hq⟩; simpa using hq
    · rintro l ⟨_, hq⟩; simpa using hq
    · simpa [List.any_eq_false] using hl

/-- C12 as stated fails for a volume that is not of the registry: the tmpfs
volume `db`, whose data directory is a symbolic link into the managed root of
the bind registry. The first `Remove` succeeds, the data path and its parent
are gone, and the second `Remove` reports that the parent
`/var/lib/docker/tmpfs/db` is out of the root. -/
theorem Remove_again_foreign :
    (dockerRoot.Remove toyEnv crossFS (.localVol tmpfsDbVolume)).out = .ok () ∧
    toyPresent (dockerRoot.Remove toyEnv crossFS (.localVol tmpfsDbVolume)).fs
      tmpfsDbVolume.Path = false ∧
    toyPresent (dockerRoot.Remove toyEnv crossFS (.localVol tmpfsDbVolume)).fs
      (Dir tmpfsDbVolume.Path) = false ∧
    ((dockerRoot.Remove toyEnv crossFS (.localVol tmpfsDbVolume)).root.Remove toyEnv
      (dockerRoot.Remove toyEnv crossFS (.localVol tmpfsDbVolume)).fs
      (.localVol tmpfsDbVolume)).out =
        .error (Error.outOfRoot "/var/lib/docker".toList "/var/lib/docker/tmpfs/db".toList) := by
  refine ⟨?_, ?_, ?_, ?_⟩ <;> decide

/-- C12, amended: let the operating system do as documented on a path that
does not exist (after `os.RemoveAll` returned no error, or only that the path
does not exist, the path does not exist; `filepath.EvalSymlinks` of a path
whose parent directory does not exist reports that it does not exist;
`os.RemoveAll` of a path that does not exist returns no error and changes
nothing). For every registry, file system and local volume, when `Remove` has
succeeded, the parent of the data path no longer exists and the data path no
longer resolves, and a second `Remove` of the volume leaves the file system
and the registry (its `volumes` mapping included) unchanged. It succeeds when
`scopedPath` accepts the parent of the data path, and otherwise reports that
this parent is out of the root. `scopedPath` accepts the parent for every
volume whose data path is the one the registry gives its name
(`dataPath(name, r.path)`, as for every registered volume), when the managed
root is a cleaned path other than `/` and `.` and no element of the name is
`..` and one at least is neither empty nor `.`. -/
theorem Remove_again {FS : Type} (env : Env FS) (pathExists : FS → Str → Bool)
    (hgone : ∀ fs p, (∀ e, (env.RemoveAll fs p).2 = some e → IsNotExist e = true) →
      pathExists (env.RemoveAll fs p).1 p = false)
    (heval : ∀ fs p, pathExists fs (Dir p) = false →
      ∃ e, env.EvalSymlinks fs p = .error e ∧ IsNotExist e = true)
    (hrm : ∀ fs p, pathExists fs p = false → env.RemoveAll fs p = (fs, none))
    (r : Root) (fs : FS) (lv : LocalVolume)
    (hok : (r.Remove env fs (.localVol lv)).out = .ok ()) :
    pathExists (r.Remove env fs (.localVol lv)).fs (Dir lv.Path) = false ∧
    lv.RealPath env (r.Remove env fs (.localVol lv)).fs = .ok (Dir lv.Path) ∧
    ((r.Remove env fs (.localVol lv)).root.Remove env (r.Remove env fs (.localVol lv)).fs
      (.localVol lv)).fs = (r.Remove env fs (.localVol lv)).fs ∧
    ((r.Remove env fs (.localVol lv)).root.Remove env (r.Remove env fs (.localVol lv)).fs
      (.localVol lv)).root.volumes = (r.Remove env fs (.localVol lv)).root.volumes ∧
    ((r.Remove env fs (.localVol lv)).root.Remove env (r.Remove env fs (.localVol lv)).fs
      (.localVol lv)).root = (r.Remove env fs (.localVol lv)).root ∧
    (r.scopedPath (Dir lv.Path) = true →
      ((r.Remove env fs (.localVol lv)).root.Remove env (r.Remove env fs (.localVol lv)).fs
        (.localVol lv)).out = .ok ()) ∧
    (r.scopedPath (Dir lv.Path) = false →
      ((r.Remove env fs (.localVol lv)).root.Remove env (r.Remove env fs (.localVol lv)).fs
        (.localVol lv)).out = .error (Error.outOfRoot r.scope (Dir lv.Path))) ∧
    (lv.Path = dataPath lv.Name r.path → Clean r.path = r.path → r.path ≠ [Separator] →
      r.path ≠ ['.'] → isDownName lv.Name = true → r.scopedPath (Dir lv.Path) = true) := by
  -- the state after the first call
  obtain ⟨fs1, calls, hfirst, hfs⟩ : ∃ fs1 calls, r.Remove env fs (.localVol lv) =
      ⟨.ok (), { r with volumes := mapDelete r.volumes lv.Name },
        (env.RemoveAll fs1 (Dir lv.Path)).1, calls⟩ ∧
      ∀ e, (env.RemoveAll fs1 (Dir lv.Path)).2 = some e → IsNotExist e = true := by
    cases hreal : lv.RealPath env fs with
    | error err => simp [Root.Remove, hreal] at hok
    | ok realPath =>
      by_cases hs : r.scopedPath realPath = true
      · rcases h1 : removePath env fs realPath with ⟨fs1, _ | err1⟩
        · rcases h2 : removePath env fs1 (Dir lv.Path) with ⟨fs2, _ | err2⟩
          · have h3 := removePath_fst env fs1 (Dir lv.Path)
            rw [h2] at h3
            simp only at h3
            exact ⟨fs1, [Call.EvalSymlinks lv.Path, Call.RemoveAll realPath,
              Call.RemoveAll (Dir lv.Path)], by simp [Root.Remove, hreal, hs, h1, h2, h3],
              removePath_none env fs1 (Dir lv.Path) (by rw [h2])⟩
          · simp [Root.Remove, hreal, hs, h1, h2] at hok
        · simp [Root.Remove, hreal, hs, h1] at hok
      · simp [Root.Remove, hreal, hs] at hok
  have hparent := hgone fs1 (Dir lv.Path) hfs
  rw [hfirst]
  simp only
  generalize (env.RemoveAll fs1 (Dir lv.Path)).1 = fs2 at hparent ⊢
  obtain ⟨e, he, hne⟩ := heval fs2 lv.Path hparent
  have hreal2 : lv.RealPath env fs2 = .ok (Dir lv.Path) := by
    simp [LocalVolume.RealPath, he, hne]
  have hrp : removePath env fs2 (Dir lv.Path) = (fs2, none) := by
    simp [removePath, hrm fs2 (Dir lv.Path) hparent]
  have hsc : ∀ b, ({ r with volumes := mapDelete r.volumes lv.Name } : Root).scopedPath b =
      r.scopedPath b := fun b => rfl
  refine ⟨hparent, hreal2, ?_, ?_, ?_, ?_, ?_, ?_⟩
  · cases hs : r.scopedPath (Dir lv.Path) <;>
      simp [Root.Remove, hreal2, hsc, hs, hrp]
  · cases hs : r.scopedPath (Dir lv.Path) <;>
      simp [Root.Remove, hreal2, hsc, hs, hrp, mapDelete_mapDelete]
  · cases hs : r.scopedPath (Dir lv.Path) <;>
      simp [Root.Remove, hreal2, hsc, hs, hrp, mapDelete_mapDelete]
  · intro hs
    simp [Root.Remove, hreal2, hsc, hs, hrp]
  · intro hs
    simp [Root.Remove, hreal2, hsc, hs]
  · intro hpath hclean hr1 hr2 hdown
    have hroot : GoodRoot r.path := ⟨hclean, hr1, hr2⟩
    obtain ⟨t, ht⟩ := Join_root_down hroot lv.Name hdown
    rw [hpath, Dir_dataPath _ _ (Or.inl hroot.path_ne_nil), ht]
    simp only [Root.scopedPath]
    rw [HasPrefix_append]
    simp

theorem Remove_again_witness :
    (dockerRoot.Remove toyEnv plainFS (.localVol dbVolume)).out = .ok () ∧
    dockerRoot.scopedPath (Dir dbVolume.Path) = true ∧
    toyPresent (dockerRoot.Remove toyEnv plainFS (.localVol dbVolume)).fs (Dir dbVolume.Path) =
      false ∧
    ((dockerRoot.Remove toyEnv plainFS (.localVol dbVolume)).root.Remove toyEnv
      (dockerRoot.Remove toyEnv plainFS (.localVol dbVolume)).fs (.localVol dbVolume)).out =
      .ok () ∧
    ((dockerRoot.Remove toyEnv plainFS (.localVol dbVolume)).root.Remove toyEnv
      (dockerRoot.Remove toyEnv plainFS (.localVol dbVolume)).fs (.localVol dbVolume)).fs =
      (dockerRoot.Remove toyEnv plainFS (.localVol dbVolume)).fs :=
  have h := Remove_again toyEnv toyPresent toyEnv_RemoveAll_clears toyEnv_EvalSymlinks_orphan
    toyEnv_RemoveAll_absent dockerRoot plainFS dbVolume (by decide)
  ⟨by decide, h.2.2.2.2.2.2.2 (by decide) (by decide) (by decide) (by decide) (by decide),
    h.1, h.2.2.2.2.2.1 (by decide), h.2.2.1⟩

end Docker
